import Mathlib

/-!
# chat-doc-backend: the chunker, the in-memory vector store and the request handlers

A shallow embedding of `src/server.js`.

* A JavaScript string is the list of its UTF-16 code units, so that `length`, `slice` and
  `trim` count what the engine counts.
* The numbers `size`, `overlap` and `k` are integers (`Int`); `start` never leaves `Nat`.
* The arithmetic on similarity scores is a parameter (`Arith N`), so that what is proved of
  `topKMemory` holds for the doubles of the engine; `exactArith` is the exact arithmetic
  over an ordered field extended with `NaN` and the two infinities (`JSNum F`).
* The process state (`useInMemory`, `collection`, `memStore`) is passed explicitly, together
  with a trace of the calls made to collaborators outside the program.
-/

namespace ChatDoc

/-! ## Strings -/

/-- One UTF-16 code unit. -/
abbrev CodeUnit := Nat

/-- A JavaScript string: its UTF-16 code units in order. -/
abbrev JSString := List CodeUnit

/-- UTF-16 encoding of one Unicode scalar value. -/
def encodeChar (c : Char) : List CodeUnit :=
  if c.toNat < 0x10000 then [c.toNat]
  else [0xD800 + (c.toNat - 0x10000) / 0x400, 0xDC00 + (c.toNat - 0x10000) % 0x400]

/-- The JavaScript string written by a literal. -/
def ofString (s : String) : JSString :=
  s.toList.flatMap encodeChar

/-- The code units that `String.prototype.trim` strips: ECMAScript WhiteSpace and
LineTerminator. All of them lie in the basic multilingual plane. -/
def isWhiteSpace (c : CodeUnit) : Bool :=
  c == 0x09 || c == 0x0A || c == 0x0B || c == 0x0C || c == 0x0D || c == 0x20 ||
  c == 0xA0 || c == 0x1680 || (0x2000 ≤ c && c ≤ 0x200A) || c == 0x2028 || c == 0x2029 ||
  c == 0x202F || c == 0x205F || c == 0x3000 || c == 0xFEFF

/-- The method `String.prototype.trim`: white space removed from both ends. -/
def jsTrim (s : JSString) : JSString :=
  ((s.dropWhile isWhiteSpace).reverse.dropWhile isWhiteSpace).reverse

/-- The method `slice(b, e)` of strings and arrays: a negative index counts from the end,
indices are clamped to `[0, length]`, and an empty range gives the empty sequence. -/
def jsSlice {α : Type} (s : List α) (b e : Int) : List α :=
  let len : Int := s.length
  let from_ : Int := if b < 0 then max (len + b) 0 else min b len
  let to_ : Int := if e < 0 then max (len + e) 0 else min e len
  (s.drop from_.toNat).take (max (to_ - from_) 0).toNat

/-- The method `includes` of strings: the argument occurs as a contiguous substring. -/
def jsIncludes (s sub : JSString) : Bool :=
  s.tails.any (fun t => sub.isPrefixOf t)

/-- The method `endsWith` of strings. -/
def jsEndsWith (s suffix_ : JSString) : Bool :=
  suffix_.isSuffixOf s

/-- ASCII lower-casing of a code unit: the only folding under which the letters of
`/\.(txt|md)$/i` match (without the `u` flag a non-ASCII unit never folds to ASCII). -/
def asciiLower (c : CodeUnit) : CodeUnit :=
  if 0x41 ≤ c ∧ c ≤ 0x5A then c + 0x20 else c

/-- The test `name.match(/\.(txt|md)$/i)`: the name ends in `.txt` or `.md`, letters in
either case. -/
def matchesTxtMd (name : JSString) : Bool :=
  let lower := name.map asciiLower
  jsEndsWith lower (ofString ".txt") || jsEndsWith lower (ofString ".md")

/-! ## The chunker -/

/-- The `for` loop of `chunkText`, entered with the current `start` and the chunks pushed so
far. It is total: `start` grows by at least one in every iteration. -/
def chunkLoop (text : JSString) (size overlap : Int) (start : Nat) (chunks : List JSString) :
    List JSString :=
  if start < text.length then
    chunkLoop text size overlap (start + (max 1 (size - overlap)).toNat)
      (chunks ++ [jsSlice text start (start + size)])
  else chunks
termination_by text.length - start
decreasing_by
  have h1 : 1 ≤ (max 1 (size - overlap)).toNat := by
    have : (1 : Int) ≤ max 1 (size - overlap) := le_max_left _ _
    omega
  omega

/-- The function `chunkText(text, size, overlap)`. -/
def chunkText (text : JSString) (size overlap : Int) : List JSString :=
  (chunkLoop text size overlap 0 []).filter (fun c => decide ((jsTrim c).length > 0))

/-- The same loop run for at most `fuel` iterations: `none` when the loop condition still
holds after `fuel` executions of the body. -/
def chunkLoopFuel (text : JSString) (size overlap : Int) :
    Nat → Nat → List JSString → Option (List JSString)
  | 0, start, chunks => if start < text.length then none else some chunks
  | fuel + 1, start, chunks =>
    if start < text.length then
      chunkLoopFuel text size overlap fuel (start + (max 1 (size - overlap)).toNat)
        (chunks ++ [jsSlice text start (start + size)])
    else some chunks

/-- The step of the loop, `Math.max(1, size - overlap)`. -/
def chunkStep (size overlap : Int) : Nat :=
  (max 1 (size - overlap)).toNat

/-- Number of loop iterations the specification allows: `ceil(length / step)`. -/
def ceilDiv (n step : Nat) : Nat :=
  (n + step - 1) / step

/-- The windows named by the specification: `text[start : start + size]` for
`start = 0, step, 2 * step, ...` while `start < length text`. -/
def specWindows (text : JSString) (size : Int) (step : Nat) : List JSString :=
  (List.range (ceilDiv text.length step)).map
    (fun i => (text.drop (i * step)).take size.toNat)

/-- A chunk is blank when it is empty or holds white space only. -/
def isBlank (c : JSString) : Bool :=
  c.all isWhiteSpace

/-- A position `p` of the text is covered when a chunk returned by `chunkText`, cut at a
start offset of the loop, contains it. -/
def Covered (text : JSString) (size overlap : Int) (p : Nat) : Prop :=
  ∃ start : Nat, start % chunkStep size overlap = 0 ∧ start < text.length ∧ start ≤ p ∧
    (p : Int) < (start : Int) + size ∧
    jsSlice text (start : Int) ((start : Int) + size) ∈ chunkText text size overlap

/-! ## Numbers -/

/-- The arithmetic of the engine on its numbers `N`: the constant `0`, the value `NaN` that
`undefined` turns into, the operators `+ - * /`, `Math.sqrt`, and the tests `v > 0`,
`a >= b` and "is not `NaN`". The program is read over any such arithmetic: the doubles of
the engine are one, the exact arithmetic `exactArith` below is another. -/
structure Arith (N : Type) where
  zero : N
  nan : N
  add : N → N → N
  sub : N → N → N
  mul : N → N → N
  div : N → N → N
  sqrt : N → N
  isPositive : N → Bool
  ge : N → N → Bool
  isNumber : N → Bool

/-- What the comparator `(a, b) => b.score - a.score` needs of the arithmetic to be
consistent on scores that are numbers: `t - s > 0` exactly when not `s >= t`, and `>=` is
total and transitive. Doubles have the three properties: the difference of two distinct
doubles is never rounded to zero, and `Infinity - Infinity` is `NaN`. -/
structure Arith.Ordered {N : Type} (ar : Arith N) : Prop where
  isPositive_sub : ∀ s t : N, ar.isNumber s = true → ar.isNumber t = true →
    ar.isPositive (ar.sub t s) = !ar.ge s t
  ge_total : ∀ s t : N, ar.isNumber s = true → ar.isNumber t = true →
    ar.ge s t = true ∨ ar.ge t s = true
  ge_trans : ∀ s t u : N, ar.ge s t = true → ar.ge t u = true → ar.ge s u = true

/-- A JavaScript number over exact arithmetic: `NaN`, a finite value of the ordered field
`F`, or one of the two infinities. Rounding is idealised away and the sign of zero is not
tracked (every zero divisor met by `cosine` is `+0`). -/
inductive JSNum (F : Type) where
  | nan : JSNum F
  | fin (x : F) : JSNum F
  | inf (positive : Bool) : JSNum F
  deriving DecidableEq, Repr

namespace JSNum

variable {F : Type} [LinearOrderedField F]

/-- Addition `a + b`. -/
def add : JSNum F → JSNum F → JSNum F
  | fin x, fin y => fin (x + y)
  | fin _, inf s => inf s
  | inf s, fin _ => inf s
  | inf s, inf t => if s = t then inf s else nan
  | _, _ => nan

/-- Unary minus. -/
def neg : JSNum F → JSNum F
  | fin x => fin (-x)
  | inf s => inf (!s)
  | nan => nan

/-- Subtraction `a - b`. -/
def sub (a b : JSNum F) : JSNum F :=
  add a (neg b)

/-- Multiplication `a * b`. -/
def mul : JSNum F → JSNum F → JSNum F
  | fin x, fin y => fin (x * y)
  | fin x, inf s => if x = 0 then nan else inf (if 0 < x then s else !s)
  | inf s, fin y => if y = 0 then nan else inf (if 0 < y then s else !s)
  | inf s, inf t => inf (s == t)
  | _, _ => nan

/-- Division `a / b`: `0 / 0` is `NaN`, a non-zero value over zero is an infinity. -/
def div : JSNum F → JSNum F → JSNum F
  | fin x, fin y =>
    if y = 0 then (if x = 0 then nan else inf (decide (0 < x))) else fin (x / y)
  | fin _, inf _ => fin 0
  | inf s, fin y => inf (if 0 ≤ y then s else !s)
  | _, _ => nan

/-- The function `Math.sqrt`, given the exact square root on the non-negative finite values. -/
def sqrt (sqrtF : F → F) : JSNum F → JSNum F
  | fin x => if x < 0 then nan else fin (sqrtF x)
  | inf true => inf true
  | _ => nan

/-- The test `v > 0`, false for `NaN`. A comparator result is used by `sort` only through
its sign, and `NaN` counts as `+0` there. -/
def isPositive : JSNum F → Bool
  | fin x => decide (0 < x)
  | inf s => s
  | nan => false

/-- The comparison `a >= b` of the language: false as soon as one side is `NaN`. -/
def ge : JSNum F → JSNum F → Bool
  | fin x, fin y => decide (y ≤ x)
  | inf s, inf t => s || !t
  | inf s, fin _ => s
  | fin _, inf t => !t
  | _, _ => false

/-- The value is not `NaN`. -/
def isNumber : JSNum F → Bool
  | nan => false
  | _ => true

end JSNum

/-- Exact arithmetic over the ordered field `F`, with `sqrtF` the exact square root on the
non-negative values. -/
def exactArith {F : Type} [LinearOrderedField F] (sqrtF : F → F) : Arith (JSNum F) :=
  { zero := JSNum.fin 0
    nan := JSNum.nan
    add := JSNum.add
    sub := JSNum.sub
    mul := JSNum.mul
    div := JSNum.div
    sqrt := JSNum.sqrt sqrtF
    isPositive := JSNum.isPositive
    ge := JSNum.ge
    isNumber := JSNum.isNumber }

/-! ## Arrays

Each array method is given with its effect on the receiver: the pair returned is the
receiver after the call and the value of the call. -/

/-- The method `map`: a new array, the receiver is left as it was. -/
def arrayMap {α β : Type} (f : α → β) (receiver : List α) : List α × List β :=
  (receiver, receiver.map f)

/-- The method `slice` of arrays: a new array, the receiver is left as it was. -/
def arraySlice {α : Type} (b e : Int) (receiver : List α) : List α × List α :=
  (receiver, jsSlice receiver b e)

/-- Insertion of `x` in front of a sorted list whose elements all came after `x` in the
input: `x` moves past `y` only when the comparator says `x` sorts after `y`. -/
def sortInsert {α N : Type} (ar : Arith N) (cmp : α → α → N) (x : α) : List α → List α
  | [] => [x]
  | y :: ys =>
    if ar.isPositive (cmp x y) then y :: sortInsert ar cmp x ys else x :: y :: ys

/-- A stable sort by the comparator `cmp`. For a consistent comparator ECMAScript fixes the
result of `Array.prototype.sort` uniquely (sorted, and stable), so every conforming engine
returns this list; for an inconsistent comparator the language leaves the order open. -/
def sortList {α N : Type} (ar : Arith N) (cmp : α → α → N) : List α → List α
  | [] => []
  | x :: xs => sortInsert ar cmp x (sortList ar cmp xs)

/-- The method `sort(cmp)`: sorts the receiver in place and returns it. -/
def arraySort {α N : Type} (ar : Arith N) (cmp : α → α → N) (receiver : List α) :
    List α × List α :=
  (sortList ar cmp receiver, sortList ar cmp receiver)

/-! ## The in-memory vector store -/

/-- The element `v[i]` as a number: `undefined` (an index past the end) behaves as `NaN` in
arithmetic. -/
def getNum {N : Type} (ar : Arith N) (v : List N) (i : Nat) : N :=
  match v.get? i with
  | some x => x
  | none => ar.nan

/-- The function `cosine(a, b)`: one pass over the indices of `a` accumulating `dot`, `na`
and `nb`, then `dot / (Math.sqrt(na) * Math.sqrt(nb))`. -/
def cosine {N : Type} (ar : Arith N) (a b : List N) : N :=
  let acc := (List.range a.length).foldl
    (fun (acc : N × N × N) i =>
      (ar.add acc.1 (ar.mul (getNum ar a i) (getNum ar b i)),
       ar.add acc.2.1 (ar.mul (getNum ar a i) (getNum ar a i)),
       ar.add acc.2.2 (ar.mul (getNum ar b i) (getNum ar b i))))
    (ar.zero, ar.zero, ar.zero)
  ar.div acc.1 (ar.mul (ar.sqrt acc.2.1) (ar.sqrt acc.2.2))

/-- The dot product of the specification: the sum of the products of paired entries. -/
def dot {F : Type} [LinearOrderedField F] (a b : List F) : F :=
  (List.zipWith (fun x y => x * y) a b).sum

/-- The squared Euclidean norm of the specification. -/
def normSq {F : Type} [LinearOrderedField F] (a : List F) : F :=
  (a.map (fun x => x * x)).sum

/-- An entry of `memStore`: `{ id, text, embedding }`. -/
structure Chunk (F : Type) where
  id : String
  text : JSString
  embedding : List F
  deriving DecidableEq, Repr

/-- A stage of the pipeline that was entered, or a call made to a collaborator outside the
program, in the order in which they happened. -/
inductive Event (F : Type) where
  | connect : Event F
  | pdfParse (buffer : List Nat) : Event F
  | mammoth (buffer : List Nat) : Event F
  | decodeText (buffer : List Nat) : Event F
  | chunk (text : JSString) : Event F
  | embed (input : JSString) : Event F
  | collectionAdd (id : String) (embedding : List F) (document : JSString) : Event F
  | collectionQuery (embedding : List F) (nResults : Int) : Event F
  | chat (context question : JSString) : Event F
  deriving DecidableEq, Repr

/-- The event is a call on the remote collection. -/
def Event.isRemote {F : Type} : Event F → Bool
  | .collectionAdd _ _ _ => true
  | .collectionQuery _ _ => true
  | _ => false

/-- The event is text extraction, chunking or embedding. -/
def Event.isIngest {F : Type} : Event F → Bool
  | .pdfParse _ => true
  | .mammoth _ => true
  | .decodeText _ => true
  | .chunk _ => true
  | .embed _ => true
  | _ => false

/-- Everything outside the program text: the arithmetic of the engine, the environment
variables read at startup, and the replies of the collaborators. A reply may depend on the whole
history of calls, so a service may fail at one call and succeed at the next. -/
structure Env (F : Type) where
  arith : Arith F
  chromaUrl : Bool
  newCloudClient : Except String Unit
  getOrCreateCollection : Except String String
  embed : List (Event F) → JSString → Except String (List F)
  now : List (Event F) → Nat
  collectionAdd : List (Event F) → String → List F → JSString → Except String Unit
  collectionQuery : List (Event F) → List F → Int → Except String (Option (List (List JSString)))
  pdfParse : List (Event F) → List Nat → Except String JSString
  mammoth : List (Event F) → List Nat → Except String JSString
  decodeUtf8 : List Nat → JSString
  chat : List (Event F) → JSString → JSString → Except String JSString

/-- The module-level variables `chroma`, `collection`, `useInMemory` and `memStore`, and the
trace of events so far. -/
structure ServerState (F : Type) where
  chroma : Bool
  collection : Option String
  useInMemory : Bool
  memStore : List (Chunk F)
  trace : List (Event F)
  deriving DecidableEq, Repr

/-- The state at load time: `chroma = null`, `collection = null`, `useInMemory = false`,
`memStore = []`. -/
def ServerState.initial {F : Type} : ServerState F :=
  { chroma := false, collection := none, useInMemory := false, memStore := [], trace := [] }

/-- The state after one more event. -/
def ServerState.log {F : Type} (st : ServerState F) (e : Event F) : ServerState F :=
  { st with trace := st.trace ++ [e] }

/-- The function `topKMemory(query, k)`: embed the query, then map, sort, slice and map. The
sort acts on the array returned by the first `map`. -/
def topKMemory {F : Type} (env : Env F) (st : ServerState F)
    (query : JSString) (k : Int) : Except String (List JSString) × ServerState F :=
  let st1 := st.log (Event.embed query)
  match env.embed st.trace query with
  | .error e => (.error e, st1)
  | .ok q =>
    let (memStore1, scored) :=
      arrayMap (fun s => (s, cosine env.arith q s.embedding)) st1.memStore
    let (_, sorted) :=
      arraySort env.arith (fun (a b : Chunk F × F) => env.arith.sub b.2 a.2) scored
    let (_, top) := arraySlice 0 k sorted
    let (_, texts) := arrayMap (fun (x : Chunk F × F) => x.1.text) top
    (.ok texts, { st1 with memStore := memStore1 })

/-- The function `initVectorStore()`. Whatever is thrown inside the `try` is caught. -/
def initVectorStore {F : Type} (env : Env F) (st : ServerState F) : ServerState F :=
  if env.chromaUrl then
    match env.newCloudClient with
    | .error _ => { st with useInMemory := true }
    | .ok _ =>
      let st1 := { st.log Event.connect with chroma := true }
      match env.getOrCreateCollection with
      | .error _ => { st1 with useInMemory := true }
      | .ok c => { st1 with collection := some c }
  else { st with useInMemory := true }

/-- The identifier of a new chunk. -/
def chunkId (now i : Nat) : String :=
  "chunk-" ++ toString now ++ "-" ++ toString i

/-- The loop of `addChunks`, at index `i` with the chunks from `i` on still to do. A failed
call ends the loop and keeps what was stored before it. -/
def addChunksLoop {F : Type} (env : Env F) :
    List JSString → Nat → ServerState F → Except String Unit × ServerState F
  | [], _, st => (.ok (), st)
  | c :: rest, i, st =>
    let st1 := st.log (Event.embed c)
    match env.embed st.trace c with
    | .error e => (.error e, st1)
    | .ok vec =>
      if st1.useInMemory then
        addChunksLoop env rest (i + 1)
          { st1 with memStore := st1.memStore ++
              [{ id := chunkId (env.now st1.trace) i, text := c, embedding := vec }] }
      else
        match st1.collection with
        | none => (.error "Cannot read properties of null (reading \x27add\x27)", st1)
        | some _ =>
          let id := chunkId (env.now st1.trace) i
          let st2 := st1.log (Event.collectionAdd id vec c)
          match env.collectionAdd st1.trace id vec c with
          | .error e => (.error e, st2)
          | .ok _ => addChunksLoop env rest (i + 1) st2

/-- The function `addChunks(chunks)`. -/
def addChunks {F : Type} (env : Env F) (st : ServerState F) (chunks : List JSString) :
    Except String Unit × ServerState F :=
  addChunksLoop env chunks 0 st

/-- The function `retrieveTopK(query, k)`. -/
def retrieveTopK {F : Type} (env : Env F) (st : ServerState F)
    (query : JSString) (k : Int) : Except String (List JSString) × ServerState F :=
  if st.useInMemory then topKMemory env st query k
  else
    let st1 := st.log (Event.embed query)
    match env.embed st.trace query with
    | .error e => (.error e, st1)
    | .ok q =>
      match st1.collection with
      | none => (.error "Cannot read properties of null (reading \x27query\x27)", st1)
      | some _ =>
        let st2 := st1.log (Event.collectionQuery q k)
        match env.collectionQuery st1.trace q k with
        | .error e => (.error e, st2)
        | .ok none => (.ok [], st2)
        | .ok (some docs) => (.ok docs.flatten, st2)

/-- The ranking asked of `nearestK`: `texts` are the texts of the first `min(k, n)` entries
of the store rearranged so that scores never increase (in the sense of `>=`) and entries of
equal score keep their insertion order. Entries are paired with their index in the store. -/
def RankedBy {F : Type} (ar : Arith F) (score : Chunk F → F)
    (store : List (Chunk F)) (k : Nat) (texts : List JSString) : Prop :=
  ∃ L : List (Nat × Chunk F), L.Perm store.enum ∧
    L.Pairwise (fun x y => ar.ge (score x.2) (score y.2) = true ∧
      (ar.ge (score y.2) (score x.2) = true → x.1 < y.1)) ∧
    texts = (L.take (min k store.length)).map (fun x => x.2.text)

/-- An environment with arithmetic `ar` in which the embedding service always answers `q`,
no vector database is configured and every other collaborator fails. -/
def fixedEnv {F : Type} (ar : Arith F) (q : List F) : Env F :=
  { arith := ar
    chromaUrl := false
    newCloudClient := .error "unused"
    getOrCreateCollection := .error "unused"
    embed := fun _ _ => .ok q
    now := fun tr => tr.length
    collectionAdd := fun _ _ _ _ => .error "unused"
    collectionQuery := fun _ _ _ => .error "unused"
    pdfParse := fun _ _ => .error "unused"
    mammoth := fun _ _ => .error "unused"
    decodeUtf8 := fun bytes => bytes
    chat := fun _ _ _ => .error "unused" }

/-- An in-memory state holding the given store. -/
def memState {F : Type} (store : List (Chunk F)) : ServerState F :=
  { chroma := false, collection := none, useInMemory := true, memStore := store, trace := [] }

/-! ## The HTTP handlers -/

/-- The JSON body of a response. -/
inductive Body where
  | text (s : String) : Body
  | message (m : String) : Body
  | failure (m : String) (error : String) : Body
  | answer (a : JSString) : Body
  deriving DecidableEq, Repr

/-- A response: status code and body. -/
structure Response where
  status : Nat
  body : Body
  deriving DecidableEq, Repr

/-- The field `req.file` set by the upload middleware. -/
structure UploadedFile where
  mimetype : JSString
  originalname : JSString
  buffer : List Nat
  deriving DecidableEq, Repr

/-- Lines 167 to 172 of the upload handler: the blank check, the chunker and `addChunks`. -/
def indexText {F : Type} (env : Env F) (st : ServerState F) (text : JSString) :
    Response × ServerState F :=
  if (jsTrim text).isEmpty then
    (⟨400, .message "No extractable text in file."⟩, st)
  else
    let chunks := chunkText text 800 120
    match addChunks env (st.log (Event.chunk text)) chunks with
    | (.error e, st1) => (⟨500, .failure "Upload failed." e⟩, st1)
    | (.ok _, st1) =>
      (⟨200, .message ("Uploaded. Indexed " ++ toString chunks.length ++ " chunks.")⟩, st1)

/-- The handler of `POST /upload`. -/
def uploadHandler {F : Type} (env : Env F) (st : ServerState F) (file : Option UploadedFile) :
    Response × ServerState F :=
  match file with
  | none => (⟨400, .message "No file uploaded."⟩, st)
  | some f =>
    let mime := f.mimetype
    if jsIncludes mime (ofString "pdf") then
      match env.pdfParse st.trace f.buffer with
      | .error e => (⟨500, .failure "Upload failed." e⟩, st.log (Event.pdfParse f.buffer))
      | .ok text => indexText env (st.log (Event.pdfParse f.buffer)) text
    else if jsIncludes mime (ofString "word") || jsEndsWith f.originalname (ofString ".docx") then
      match env.mammoth st.trace f.buffer with
      | .error e => (⟨500, .failure "Upload failed." e⟩, st.log (Event.mammoth f.buffer))
      | .ok text => indexText env (st.log (Event.mammoth f.buffer)) text
    else if jsIncludes mime (ofString "text") || matchesTxtMd f.originalname then
      indexText env (st.log (Event.decodeText f.buffer)) (env.decodeUtf8 f.buffer)
    else
      (⟨415, .message "Unsupported file type. Use PDF, DOCX, TXT, or MD."⟩, st)

/-- The field `query` of the JSON body of `POST /ask`: absent (`undefined` or `null`), a
string, or any other JSON value (a number, a boolean, an array, an object). -/
inductive QueryField where
  | absent : QueryField
  | text (s : JSString) : QueryField
  | other : QueryField
  deriving DecidableEq, Repr

/-- The handler of `POST /ask`. For an absent query `query?.trim()` is `undefined` and the
answer is 400; on a value that is not a string `trim` is not a function, the call throws
and the `catch` answers 500. -/
def askHandler {F : Type} (env : Env F) (st : ServerState F)
    (query : QueryField) : Response × ServerState F :=
  match query with
  | .absent => (⟨400, .message "Query is required."⟩, st)
  | .other => (⟨500, .failure "Ask failed." "query?.trim is not a function"⟩, st)
  | .text q =>
    if (jsTrim q).isEmpty then (⟨400, .message "Query is required."⟩, st)
    else
      match retrieveTopK env st q 4 with
      | (.error e, st1) => (⟨500, .failure "Ask failed." e⟩, st1)
      | (.ok topDocs, st1) =>
        let context := List.intercalate (ofString "\n---\n") topDocs
        match env.chat st1.trace context q with
        | .error e => (⟨500, .failure "Ask failed." e⟩, st1.log (Event.chat context q))
        | .ok a => (⟨200, .answer a⟩, st1.log (Event.chat context q))

/-- The handler of `POST /upload` recognises the file: its MIME type contains `pdf`, `word`
or `text`, or its name ends in `.docx`, `.txt` or `.md`. -/
def recognised (f : UploadedFile) : Bool :=
  jsIncludes f.mimetype (ofString "pdf") ||
    (jsIncludes f.mimetype (ofString "word") || jsEndsWith f.originalname (ofString ".docx")) ||
    (jsIncludes f.mimetype (ofString "text") || matchesTxtMd f.originalname)

/-- An environment over the rationals in which the embedding service always answers `(1)`;
no square root is taken in it. -/
def ratEnv : Env (JSNum ℚ) :=
  fixedEnv (exactArith id) [JSNum.fin 1]

/-- The environment `ratEnv` with a DOCX extractor that returns `text`. -/
def docxEnv (text : JSString) : Env (JSNum ℚ) :=
  { ratEnv with mammoth := fun _ _ => .ok text }

/-- A chunk whose embedding has the finite coordinates given. -/
def finChunk {F : Type} (id : String) (text : String) (embedding : List F) : Chunk (JSNum F) :=
  { id := id, text := ofString text, embedding := embedding.map JSNum.fin }

/-- A request to the server. -/
inductive Request where
  | health : Request
  | upload (file : Option UploadedFile) : Request
  | ask (query : QueryField) : Request

/-- The server handles one request. -/
def handle {F : Type} (env : Env F) (st : ServerState F) :
    Request → Response × ServerState F
  | .health => (⟨200, .text "ok"⟩, st)
  | .upload file => uploadHandler env st file
  | .ask query => askHandler env st query

/-- The states the process can be in after startup: the state left by `initVectorStore`,
and every state reached from there by handling a request. -/
inductive Reachable {F : Type} (env : Env F) : ServerState F → Prop where
  | start : Reachable env (initVectorStore env ServerState.initial)
  | step {st : ServerState F} (req : Request) :
      Reachable env st → Reachable env (handle env st req).2

/-! # Theorems -/

/-! ## The chunker -/

theorem chunkStep_pos (size overlap : Int) : 1 ≤ chunkStep size overlap := by
  unfold chunkStep
  have : (1 : Int) ≤ max 1 (size - overlap) := le_max_left _ _
  omega

theorem chunkStep_le_size (size overlap : Int) (hs : 0 < size) (ho : 0 ≤ overlap) :
    chunkStep size overlap ≤ size.toNat := by
  unfold chunkStep
  rcases max_cases (1 : Int) (size - overlap) with h | h <;> omega

theorem chunkStep_of_le (size overlap : Int) (h : size ≤ overlap) :
    chunkStep size overlap = 1 := by
  unfold chunkStep
  rcases max_cases (1 : Int) (size - overlap) with h | h <;> omega

theorem ceilDiv_zero (step : Nat) : ceilDiv 0 step = 0 := by
  unfold ceilDiv
  rcases Nat.eq_zero_or_pos step with h | h
  · subst h; simp
  · exact Nat.div_eq_of_lt (by omega)

theorem ceilDiv_succ_step (d step : Nat) (hd : 1 ≤ d) (hs : 1 ≤ step) :
    ceilDiv d step = ceilDiv (d - step) step + 1 := by
  unfold ceilDiv
  rcases Nat.lt_or_ge d step with h | h
  · have h0 : d - step = 0 := by omega
    rw [h0, Nat.div_eq_of_lt (by omega : 0 + step - 1 < step)]
    exact Nat.div_eq_of_lt_le (by omega) (by omega)
  · have e : d + step - 1 = (d - step + step - 1) + step := by omega
    rw [e, Nat.add_div_right _ (by omega : 0 < step)]

theorem ceilDiv_le_self (n step : Nat) (hs : 1 ≤ step) : ceilDiv n step ≤ n := by
  unfold ceilDiv
  rw [Nat.div_le_iff_le_mul_add_pred (by omega)]
  have : n ≤ n * step := Nat.le_mul_of_pos_right n hs
  have e : step * n = n * step := Nat.mul_comm _ _
  omega

theorem lt_ceilDiv_iff (i n step : Nat) (hs : 1 ≤ step) :
    i < ceilDiv n step ↔ i * step < n := by
  unfold ceilDiv
  rw [Nat.lt_iff_add_one_le, Nat.le_div_iff_mul_le (by omega), Nat.add_mul]
  omega

theorem ceilDiv_one (n : Nat) : ceilDiv n 1 = n := by
  unfold ceilDiv
  simp

theorem jsSlice_window {α : Type} (s : List α) (start : Nat) (size : Int) (hs : 0 < size) :
    jsSlice s (start : Int) ((start : Int) + size) = (s.drop start).take size.toNat := by
  unfold jsSlice
  have h1 : ¬ ((start : Int) < 0) := by omega
  have h2 : ¬ ((start : Int) + size < 0) := by omega
  simp only [h1, h2, if_false]
  rcases Nat.lt_or_ge start s.length with h | h
  · have e1 : (min (start : Int) (s.length : Int)).toNat = start := by
      rw [min_eq_left (by omega)]; omega
    rw [e1, List.take_eq_take, List.length_drop]
    rcases min_cases ((start : Int) + size) (s.length : Int) with ⟨h3, _⟩ | ⟨h3, _⟩ <;>
      rw [h3, min_eq_left (by omega : (start : Int) ≤ s.length)] <;> omega
  · rw [List.drop_eq_nil_of_le h, List.drop_eq_nil_of_le]
    · simp
    · rw [min_eq_right (by omega)]; omega

theorem length_jsSlice_le {α : Type} (s : List α) (b e : Int) : (jsSlice s b e).length ≤ s.length := by
  unfold jsSlice
  simp only [List.length_take, List.length_drop]
  omega

/-- The loop pushes one window per step, for as many steps as fit below the length. -/
theorem chunkLoop_eq (text : JSString) (size overlap : Int) :
    ∀ (d start : Nat) (chunks : List JSString), text.length - start = d →
      chunkLoop text size overlap start chunks = chunks ++
        (List.range (ceilDiv d (chunkStep size overlap))).map
          (fun i => jsSlice text ((start + i * chunkStep size overlap : Nat) : Int)
            (((start + i * chunkStep size overlap : Nat) : Int) + size)) := by
  intro d
  induction d using Nat.strong_induction_on with
  | _ d ih =>
    intro start chunks hd
    have hstep := chunkStep_pos size overlap
    rw [chunkLoop]
    by_cases h : start < text.length
    · rw [if_pos h]
      have hd1 : 1 ≤ d := by omega
      rw [ih (d - chunkStep size overlap) (by omega) _ _ (by unfold chunkStep at *; omega),
        ceilDiv_succ_step d _ hd1 hstep, List.range_succ_eq_map, List.map_cons, List.map_map,
        List.append_assoc]
      congr 1
      simp only [List.singleton_append, Nat.zero_mul, Nat.add_zero]
      congr 1
      apply List.map_congr_left
      intro i _
      have e : start + chunkStep size overlap + i * chunkStep size overlap
          = start + (i + 1) * chunkStep size overlap := by rw [Nat.add_mul]; omega
      simp only [Function.comp, chunkStep] at *
      rw [e]
    · rw [if_neg h]
      have hd0 : d = 0 := by omega
      subst hd0
      simp [ceilDiv_zero]

theorem chunkLoop_windows (text : JSString) (size overlap : Int) :
    chunkLoop text size overlap 0 [] =
      (List.range (ceilDiv text.length (chunkStep size overlap))).map
        (fun i => jsSlice text ((i * chunkStep size overlap : Nat) : Int)
          (((i * chunkStep size overlap : Nat) : Int) + size)) := by
  rw [chunkLoop_eq text size overlap text.length 0 [] rfl]
  simp

theorem chunkLoop_specWindows (text : JSString) (size overlap : Int) (hs : 0 < size) :
    chunkLoop text size overlap 0 [] = specWindows text size (chunkStep size overlap) := by
  rw [chunkLoop_windows]
  unfold specWindows
  apply List.map_congr_left
  intro i _
  exact jsSlice_window text _ size hs

/-- With enough fuel the bounded loop returns what the loop returns, with less it does not
return. -/
theorem chunkLoopFuel_eq (text : JSString) (size overlap : Int) :
    ∀ (fuel start : Nat) (chunks : List JSString),
      chunkLoopFuel text size overlap fuel start chunks =
        if ceilDiv (text.length - start) (chunkStep size overlap) ≤ fuel
        then some (chunkLoop text size overlap start chunks) else none := by
  intro fuel
  have hstep := chunkStep_pos size overlap
  induction fuel with
  | zero =>
    intro start chunks
    rw [chunkLoopFuel, chunkLoop]
    by_cases h : start < text.length
    · have := ceilDiv_succ_step (text.length - start) _ (by omega) hstep
      rw [if_pos h, if_neg (by omega)]
    · have e : text.length - start = 0 := by omega
      rw [if_neg h, if_neg h, e, ceilDiv_zero]; simp
  | succ fuel ih =>
    intro start chunks
    rw [chunkLoopFuel, chunkLoop]
    by_cases h : start < text.length
    · have hc := ceilDiv_succ_step (text.length - start) _ (by omega) hstep
      have e : text.length - (start + (max 1 (size - overlap)).toNat)
          = text.length - start - chunkStep size overlap := by unfold chunkStep; omega
      rw [if_pos h, if_pos h, ih, e, hc]
      simp
    · have e : text.length - start = 0 := by omega
      rw [if_neg h, if_neg h, e, ceilDiv_zero]; simp

theorem jsTrim_eq_nil_iff (c : JSString) : jsTrim c = [] ↔ isBlank c = true := by
  unfold jsTrim isBlank
  rw [List.reverse_eq_nil_iff, List.dropWhile_eq_nil_iff, List.all_eq_true]
  constructor
  · intro h
    have hnil : c.dropWhile isWhiteSpace = [] := by
      by_contra hne
      have hhead := List.head_dropWhile_not isWhiteSpace c hne
      have hmem : (c.dropWhile isWhiteSpace).head hne ∈ (c.dropWhile isWhiteSpace).reverse :=
        List.mem_reverse.mpr (List.head_mem hne)
      rw [h _ hmem] at hhead
      exact absurd hhead (by simp)
    exact List.dropWhile_eq_nil_iff.mp hnil
  · intro h x hx
    exact h x ((List.dropWhile_sublist _).subset (List.mem_reverse.mp hx))

theorem keep_iff_not_blank (c : JSString) :
    decide ((jsTrim c).length > 0) = !isBlank c := by
  have h := jsTrim_eq_nil_iff c
  cases hb : isBlank c
  · have : jsTrim c ≠ [] := fun e => by rw [h.mp e] at hb; exact absurd hb (by simp)
    simpa using List.length_pos.mpr this
  · simp [h.mpr hb]

theorem chunkText_eq_filter (text : JSString) (size overlap : Int) (hs : 0 < size) :
    chunkText text size overlap =
      (specWindows text size (chunkStep size overlap)).filter (fun c => !isBlank c) := by
  unfold chunkText
  rw [chunkLoop_specWindows text size overlap hs]
  congr 1
  funext c
  exact keep_iff_not_blank c

theorem isBlank_of_sublist {c d : JSString} (h : c.Sublist d) (hd : isBlank d = true) :
    isBlank c = true := by
  unfold isBlank at *
  rw [List.all_eq_true] at *
  exact fun x hx => hd x (h.subset hx)

theorem window_sublist (text : JSString) (n m : Nat) : ((text.drop n).take m).Sublist text :=
  (List.take_sublist _ _).trans (List.drop_sublist _ _)

/-- C2. For `size > 0`, `chunkText` returns the windows `text[start : start + size]` for
`start = 0, step, 2 * step, ...` below the length of the text, `step = max(1, size - overlap)`,
in that order and with the blank windows removed; every chunk returned is at most `size`
long and not blank; a blank text gives no chunk. -/
theorem chunkText_spec (text : JSString) (size overlap : Int) (hs : 0 < size) :
    chunkText text size overlap =
        ((List.range (ceilDiv text.length (max 1 (size - overlap)).toNat)).map
          (fun i => (text.drop (i * (max 1 (size - overlap)).toNat)).take size.toNat)).filter
          (fun c => !isBlank c)
      ∧ (∀ i : Nat, i < ceilDiv text.length (max 1 (size - overlap)).toNat ↔
          i * (max 1 (size - overlap)).toNat < text.length)
      ∧ (∀ c ∈ chunkText text size overlap, (c.length : Int) ≤ size ∧ isBlank c = false)
      ∧ (isBlank text = true → chunkText text size overlap = []) := by
  have heq := chunkText_eq_filter text size overlap hs
  unfold specWindows chunkStep at heq
  refine ⟨heq, fun i => lt_ceilDiv_iff i _ _ (chunkStep_pos size overlap), ?_, ?_⟩
  · intro c hc
    rw [heq, List.mem_filter, List.mem_map] at hc
    obtain ⟨⟨i, _, rfl⟩, hb⟩ := hc
    refine ⟨?_, by simpa using hb⟩
    have := List.length_take_le size.toNat (text.drop (i * (max 1 (size - overlap)).toNat))
    omega
  · intro hb
    rw [heq, List.filter_eq_nil_iff]
    intro c hc
    rw [List.mem_map] at hc
    obtain ⟨i, _, rfl⟩ := hc
    simp [isBlank_of_sublist (window_sublist text _ _) hb]

/-- C2 at `"ab   cd"` with `size = 3`, `overlap = 1`: the windows start at 0, 2, 4 and 6 and
the blank one at 2 is dropped. -/
theorem chunkText_spec_witness :
    (0 : Int) < 3 ∧
      chunkText (ofString "ab   cd") 3 1
        = [ofString "ab ", ofString " cd", ofString "d"] :=
  ⟨by decide, by rw [(chunkText_spec (ofString "ab   cd") 3 1 (by decide)).1]; decide⟩

/-- C3 fails as stated. In `"a b"` cut with `size = 1`, `overlap = 0` the chunk of the blank
at position 1 is filtered out; in `"abc"` cut with `size = 1`, `overlap = -1` the step is 2
and position 1 is in no window. -/
theorem chunkText_covers_counterexample :
    ((0 : Int) < 1 ∧ 1 < (ofString "a b").length ∧ ¬ Covered (ofString "a b") 1 0 1) ∧
    ((0 : Int) < 1 ∧ 1 < (ofString "abc").length ∧ ¬ Covered (ofString "abc") 1 (-1) 1) := by
  refine ⟨⟨by decide, by decide, ?_⟩, ⟨by decide, by decide, ?_⟩⟩
  · rintro ⟨start, -, -, h1, h2, h3⟩
    have e : start = 1 := by omega
    subst e
    rw [chunkText_eq_filter _ _ _ (by decide)] at h3
    revert h3
    decide
  · rintro ⟨start, -, -, h1, h2, h3⟩
    have e : start = 1 := by omega
    subst e
    rw [chunkText_eq_filter _ _ _ (by decide)] at h3
    revert h3
    decide

/-- C3, amended. For `size > 0` and `overlap ≥ 0` every position of the text lies in a
window pushed by the loop, and every position that holds a character other than white space
lies in a chunk that `chunkText` returns, at the offset that chunk was cut from. -/
theorem chunkText_covers (text : JSString) (size overlap : Int) (hs : 0 < size)
    (ho : 0 ≤ overlap) (p : Nat) (hp : p < text.length) :
    (∃ start : Nat, start % chunkStep size overlap = 0 ∧ start < text.length ∧ start ≤ p ∧
      (p : Int) < (start : Int) + size ∧
      jsSlice text (start : Int) ((start : Int) + size) ∈ chunkLoop text size overlap 0 [])
    ∧ (isWhiteSpace (text.get ⟨p, hp⟩) = false → Covered text size overlap p) := by
  have hstep := chunkStep_pos size overlap
  have hle := chunkStep_le_size size overlap hs ho
  have hdm := Nat.div_add_mod p (chunkStep size overlap)
  have hmod := Nat.mod_lt p (by omega : chunkStep size overlap > 0)
  have hmul : p / chunkStep size overlap * chunkStep size overlap
      = chunkStep size overlap * (p / chunkStep size overlap) := Nat.mul_comm _ _
  have hin : jsSlice text ((p / chunkStep size overlap * chunkStep size overlap : Nat) : Int)
      (((p / chunkStep size overlap * chunkStep size overlap : Nat) : Int) + size)
      ∈ chunkLoop text size overlap 0 [] := by
    rw [chunkLoop_windows, List.mem_map]
    exact ⟨p / chunkStep size overlap,
      List.mem_range.mpr ((lt_ceilDiv_iff _ _ _ hstep).mpr (by omega)), rfl⟩
  refine ⟨⟨p / chunkStep size overlap * chunkStep size overlap, by simp, by omega, by omega,
    by omega, hin⟩, ?_⟩
  intro hw
  refine ⟨p / chunkStep size overlap * chunkStep size overlap, by simp, by omega, by omega,
    by omega, ?_⟩
  unfold chunkText
  rw [List.mem_filter]
  refine ⟨hin, ?_⟩
  rw [keep_iff_not_blank, jsSlice_window _ _ _ hs]
  have hmem : text.get ⟨p, hp⟩ ∈
      (text.drop (p / chunkStep size overlap * chunkStep size overlap)).take size.toNat := by
    rw [List.mem_iff_getElem]
    refine ⟨p - p / chunkStep size overlap * chunkStep size overlap, ?_, ?_⟩
    · rw [List.length_take, List.length_drop]; omega
    · rw [List.getElem_take, List.getElem_drop]
      simp only [List.get_eq_getElem]
      congr 1
      omega
  cases hb : isBlank ((text.drop (p / chunkStep size overlap * chunkStep size overlap)).take
      size.toNat)
  · rfl
  · unfold isBlank at hb
    rw [List.all_eq_true] at hb
    rw [hb _ hmem] at hw
    exact absurd hw (by simp)

/-- C3, amended, at position 1 of `"abc"` cut with `size = 2`, `overlap = 1`. -/
theorem chunkText_covers_witness :
    (0 : Int) < 2 ∧ (0 : Int) ≤ 1 ∧ Covered (ofString "abc") 2 1 1 :=
  ⟨by decide, by decide,
    (chunkText_covers (ofString "abc") 2 1 (by decide) (by decide) 1 (by decide)).2
      (by decide)⟩

/-- C4. For all `text`, `size` and `overlap` the loop of `chunkText` ends after exactly
`ceil(length / step)` executions of its body, `step = max(1, size - overlap)`: that much
fuel is enough and less is not. It pushes one chunk per iteration, so `chunkText` returns
at most `ceil(length / step)` chunks, and at most `length` chunks when `overlap ≥ size`,
where the step is 1. -/
theorem chunkText_terminates (text : JSString) (size overlap : Int) :
    chunkLoopFuel text size overlap (ceilDiv text.length (max 1 (size - overlap)).toNat) 0 []
        = some (chunkLoop text size overlap 0 [])
      ∧ (∀ fuel, fuel < ceilDiv text.length (max 1 (size - overlap)).toNat →
          chunkLoopFuel text size overlap fuel 0 [] = none)
      ∧ (chunkLoop text size overlap 0 []).length
          = ceilDiv text.length (max 1 (size - overlap)).toNat
      ∧ (chunkText text size overlap).length
          ≤ ceilDiv text.length (max 1 (size - overlap)).toNat
      ∧ ceilDiv text.length (max 1 (size - overlap)).toNat ≤ text.length
      ∧ (size ≤ overlap → (max 1 (size - overlap)).toNat = 1 ∧
          (chunkText text size overlap).length ≤ text.length) := by
  have hlen : (chunkLoop text size overlap 0 []).length
      = ceilDiv text.length (chunkStep size overlap) := by
    rw [chunkLoop_windows]; simp
  have hfil : (chunkText text size overlap).length
      ≤ ceilDiv text.length (chunkStep size overlap) := by
    rw [← hlen]; exact List.length_filter_le _ _
  have hcd := ceilDiv_le_self text.length _ (chunkStep_pos size overlap)
  unfold chunkStep at hlen hfil hcd
  refine ⟨?_, ?_, hlen, hfil, hcd, ?_⟩
  · rw [chunkLoopFuel_eq]; simp [chunkStep]
  · intro fuel hf
    rw [chunkLoopFuel_eq, if_neg]
    simpa [chunkStep] using hf
  · intro h
    exact ⟨chunkStep_of_le size overlap h, le_trans hfil hcd⟩

/-! ## Cosine similarity -/

theorem getNum_cons_succ {N : Type} (ar : Arith N) (x : N) (xs : List N) (i : Nat) :
    getNum ar (x :: xs) (i + 1) = getNum ar xs i := by
  simp [getNum]

theorem getNum_cons_zero {N : Type} (ar : Arith N) (x : N) (xs : List N) :
    getNum ar (x :: xs) 0 = x := by
  simp [getNum]

theorem JSNum.add_fin {F : Type} [LinearOrderedField F] (x y : F) :
    JSNum.add (JSNum.fin x) (JSNum.fin y) = JSNum.fin (x + y) := rfl

theorem JSNum.mul_fin {F : Type} [LinearOrderedField F] (x y : F) :
    JSNum.mul (JSNum.fin x) (JSNum.fin y) = JSNum.fin (x * y) := rfl

/-- The accumulators of the loop of `cosine` on vectors of one length, in exact
arithmetic. -/
theorem cosine_fold {F : Type} [LinearOrderedField F] (ar : Arith (JSNum F)) :
    ∀ (a b : List F), a.length = b.length → ∀ (d na nb : F),
      (List.range (a.map JSNum.fin).length).foldl
        (fun (acc : JSNum F × JSNum F × JSNum F) i =>
          (JSNum.add acc.1
            (JSNum.mul (getNum ar (a.map JSNum.fin) i) (getNum ar (b.map JSNum.fin) i)),
           JSNum.add acc.2.1
            (JSNum.mul (getNum ar (a.map JSNum.fin) i) (getNum ar (a.map JSNum.fin) i)),
           JSNum.add acc.2.2
            (JSNum.mul (getNum ar (b.map JSNum.fin) i) (getNum ar (b.map JSNum.fin) i))))
        (JSNum.fin d, JSNum.fin na, JSNum.fin nb)
      = (JSNum.fin (d + dot a b), JSNum.fin (na + normSq a), JSNum.fin (nb + normSq b)) := by
  intro a
  induction a with
  | nil =>
    intro b hb d na nb
    cases b with
    | nil => simp [dot, normSq]
    | cons y ys => simp at hb
  | cons x xs ih =>
    intro b hb d na nb
    cases b with
    | nil => simp at hb
    | cons y ys =>
      have hlen : xs.length = ys.length := by simpa using hb
      rw [List.map_cons, List.map_cons, List.length_cons, List.range_succ_eq_map,
        List.foldl_cons, List.foldl_map]
      simp only [getNum_cons_succ, getNum_cons_zero, JSNum.mul_fin, JSNum.add_fin]
      rw [ih ys hlen]
      simp [dot, normSq, add_assoc]

theorem normSq_nonneg {F : Type} [LinearOrderedField F] (a : List F) : 0 ≤ normSq a := by
  unfold normSq
  apply List.sum_nonneg
  intro x hx
  rw [List.mem_map] at hx
  obtain ⟨y, _, rfl⟩ := hx
  exact mul_self_nonneg y

theorem normSq_pos {F : Type} [LinearOrderedField F] (a : List F) (h : ∃ x ∈ a, x ≠ 0) :
    0 < normSq a := by
  induction a with
  | nil => simp at h
  | cons y ys ih =>
    have hy : 0 ≤ y * y := mul_self_nonneg y
    have hys : 0 ≤ normSq ys := normSq_nonneg ys
    have e : normSq (y :: ys) = y * y + normSq ys := by simp [normSq]
    rw [e]
    obtain ⟨x, hx, hx0⟩ := h
    rcases List.mem_cons.mp hx with rfl | hmem
    · have : 0 < x * x := mul_self_pos.mpr hx0
      linarith
    · have := ih ⟨x, hmem, hx0⟩
      linarith

theorem dot_self {F : Type} [LinearOrderedField F] (a : List F) : dot a a = normSq a := by
  unfold dot normSq
  induction a with
  | nil => simp
  | cons x xs ih => simp [ih]

/-- In exact arithmetic, on vectors of one length, `cosine` is `dot / (sqrt na * sqrt nb)`
with the quotient of the language. -/
theorem cosine_eq {F : Type} [LinearOrderedField F] (sqrtF : F → F) (a b : List F)
    (hlen : a.length = b.length) :
    cosine (exactArith sqrtF) (a.map JSNum.fin) (b.map JSNum.fin)
      = JSNum.div (JSNum.fin (dot a b)) (JSNum.fin (sqrtF (normSq a) * sqrtF (normSq b))) := by
  have h := cosine_fold (exactArith sqrtF) a b hlen 0 0 0
  simp only [zero_add] at h
  show JSNum.div _ (JSNum.mul (JSNum.sqrt sqrtF _) (JSNum.sqrt sqrtF _)) = _
  erw [h]
  simp only [JSNum.sqrt, not_lt.mpr (normSq_nonneg a), not_lt.mpr (normSq_nonneg b),
    if_false, JSNum.mul]

/-- C5 fails as stated. The loop of `cosine` runs over the indices of `a` only. For
`a = (1)` and `b = (1, 5)` it sees the first entry of `b` and returns 1, where
`dot(a, b) / (|a| * |b|)` is `1 / sqrt 26`; for `a = (1, 2)` and `b = (1)` it reads
`b[1] = undefined` and returns `NaN`, where the formula gives `1 / sqrt 5`. -/
theorem cosine_spec_counterexample :
    cosine (exactArith Real.sqrt) (([1] : List ℝ).map JSNum.fin)
        (([1, 5] : List ℝ).map JSNum.fin) = JSNum.fin 1
      ∧ JSNum.div (JSNum.fin (dot ([1] : List ℝ) [1, 5]))
          (JSNum.fin (Real.sqrt (normSq ([1] : List ℝ)) * Real.sqrt (normSq ([1, 5] : List ℝ))))
          ≠ JSNum.fin 1
      ∧ cosine (exactArith Real.sqrt) (([1, 2] : List ℝ).map JSNum.fin)
          (([1] : List ℝ).map JSNum.fin) = JSNum.nan
      ∧ JSNum.div (JSNum.fin (dot ([1, 2] : List ℝ) [1]))
          (JSNum.fin (Real.sqrt (normSq ([1, 2] : List ℝ)) * Real.sqrt (normSq ([1] : List ℝ))))
          ≠ JSNum.nan := by
  have h26 : (1 : ℝ) < Real.sqrt 26 := by
    rw [Real.lt_sqrt (by norm_num)]; norm_num
  have h5 : (0 : ℝ) < Real.sqrt 5 := Real.sqrt_pos.mpr (by norm_num)
  have r1 : List.range 1 = [0] := rfl
  have r2 : List.range 2 = [0, 1] := rfl
  refine ⟨?_, ?_, ?_, ?_⟩
  · norm_num [cosine, r1, getNum, exactArith, JSNum.add, JSNum.mul, JSNum.sqrt, JSNum.div]
  · have e : normSq ([1, 5] : List ℝ) = 26 := by norm_num [normSq]
    have hne : Real.sqrt 26 ≠ 0 := by linarith
    have hne1 : (Real.sqrt 26)⁻¹ ≠ 1 := by
      intro h
      have := inv_eq_one.mp h
      linarith
    rw [e]
    simp [dot, normSq, JSNum.div, hne, hne1]
  · norm_num [cosine, r2, getNum, exactArith, JSNum.add, JSNum.mul, JSNum.sqrt, JSNum.div]
  · have e : normSq ([1, 2] : List ℝ) = 5 := by norm_num [normSq]
    have hne : Real.sqrt 5 ≠ 0 := by linarith
    rw [e]
    simp [dot, normSq, JSNum.div, hne]

/-- C5, amended. Over the real numbers, for vectors `a`, `b` of one length, `cosine(a, b)`
is `dot(a, b) / (|a| * |b|)` (the quotient of the language, `NaN` for `0 / 0`), a real
number when both vectors are non-zero; `cosine(a, a) = 1` for non-zero `a`; and
`cosine(a, b) = 0` for non-zero vectors whose dot product is 0. -/
theorem cosine_spec (a b : List ℝ) (hlen : a.length = b.length) :
    cosine (exactArith Real.sqrt) (a.map JSNum.fin) (b.map JSNum.fin)
        = JSNum.div (JSNum.fin (dot a b))
            (JSNum.fin (Real.sqrt (normSq a) * Real.sqrt (normSq b)))
      ∧ ((∃ x ∈ a, x ≠ 0) → (∃ y ∈ b, y ≠ 0) →
          cosine (exactArith Real.sqrt) (a.map JSNum.fin) (b.map JSNum.fin)
            = JSNum.fin (dot a b / (Real.sqrt (normSq a) * Real.sqrt (normSq b))))
      ∧ ((∃ x ∈ a, x ≠ 0) →
          cosine (exactArith Real.sqrt) (a.map JSNum.fin) (a.map JSNum.fin) = JSNum.fin 1)
      ∧ ((∃ x ∈ a, x ≠ 0) → (∃ y ∈ b, y ≠ 0) → dot a b = 0 →
          cosine (exactArith Real.sqrt) (a.map JSNum.fin) (b.map JSNum.fin)
            = JSNum.fin 0) := by
  have hden : (∃ x ∈ a, x ≠ 0) → (∃ y ∈ b, y ≠ 0) →
      Real.sqrt (normSq a) * Real.sqrt (normSq b) ≠ 0 := fun ha hb =>
    mul_ne_zero (Real.sqrt_ne_zero'.mpr (normSq_pos a ha))
      (Real.sqrt_ne_zero'.mpr (normSq_pos b hb))
  refine ⟨cosine_eq Real.sqrt a b hlen, ?_, ?_, ?_⟩
  · intro ha hb
    rw [cosine_eq Real.sqrt a b hlen]
    simp only [JSNum.div, if_neg (hden ha hb)]
  · intro ha
    rw [cosine_eq Real.sqrt a a rfl, dot_self, Real.mul_self_sqrt (normSq_nonneg a)]
    have hne : normSq a ≠ 0 := ne_of_gt (normSq_pos a ha)
    simp only [JSNum.div, if_neg hne, div_self hne]
  · intro ha hb h0
    rw [cosine_eq Real.sqrt a b hlen, h0]
    simp only [JSNum.div, if_neg (hden ha hb), zero_div]

/-- C5, amended, at `a = (3, 4)` and `b = (-4, 3)`. -/
theorem cosine_spec_witness :
    ([3, 4] : List ℝ).length = ([-4, 3] : List ℝ).length ∧
      cosine (exactArith Real.sqrt) (([3, 4] : List ℝ).map JSNum.fin)
        (([3, 4] : List ℝ).map JSNum.fin) = JSNum.fin 1 ∧
      cosine (exactArith Real.sqrt) (([3, 4] : List ℝ).map JSNum.fin)
        (([-4, 3] : List ℝ).map JSNum.fin) = JSNum.fin 0 :=
  ⟨rfl,
    (cosine_spec [3, 4] [-4, 3] rfl).2.2.1 ⟨3, by simp, by norm_num⟩,
    (cosine_spec [3, 4] [-4, 3] rfl).2.2.2 ⟨3, by simp, by norm_num⟩ ⟨3, by simp, by norm_num⟩
      (by norm_num [dot])⟩

/-! ## Sorting and the in-memory store -/

theorem JSNum.isPositive_sub {F : Type} [LinearOrderedField F] (s t : JSNum F)
    (hs : s.isNumber = true) (ht : t.isNumber = true) :
    (JSNum.sub t s).isPositive = !(s.ge t) := by
  cases s with
  | nan => simp [JSNum.isNumber] at hs
  | fin x =>
    cases t with
    | nan => simp [JSNum.isNumber] at ht
    | fin y =>
      simp only [JSNum.sub, JSNum.neg, JSNum.add, JSNum.isPositive, JSNum.ge]
      by_cases h : y ≤ x
      · have : ¬ (0 < y + -x) := by linarith
        simp [h, this]
      · have : 0 < y + -x := by linarith
        simp [h, this]
    | inf q => simp [JSNum.sub, JSNum.neg, JSNum.add, JSNum.isPositive, JSNum.ge]
  | inf p =>
    cases t with
    | nan => simp [JSNum.isNumber] at ht
    | fin y => simp [JSNum.sub, JSNum.neg, JSNum.add, JSNum.isPositive, JSNum.ge]
    | inf q =>
      cases p <;> cases q <;> simp [JSNum.sub, JSNum.neg, JSNum.add, JSNum.isPositive, JSNum.ge]

theorem JSNum.ge_total {F : Type} [LinearOrderedField F] (s t : JSNum F)
    (hs : s.isNumber = true) (ht : t.isNumber = true) :
    s.ge t = true ∨ t.ge s = true := by
  cases s with
  | nan => simp [JSNum.isNumber] at hs
  | fin x =>
    cases t with
    | nan => simp [JSNum.isNumber] at ht
    | fin y => simpa [JSNum.ge] using le_total y x
    | inf q => cases q <;> simp [JSNum.ge]
  | inf p =>
    cases t with
    | nan => simp [JSNum.isNumber] at ht
    | fin y => cases p <;> simp [JSNum.ge]
    | inf q => cases p <;> cases q <;> simp [JSNum.ge]

theorem JSNum.ge_trans {F : Type} [LinearOrderedField F] (s t u : JSNum F)
    (h1 : s.ge t = true) (h2 : t.ge u = true) : s.ge u = true := by
  cases s with
  | nan => simp [JSNum.ge] at h1
  | fin x =>
    cases t with
    | nan => simp [JSNum.ge] at h1
    | fin y =>
      cases u with
      | nan => simp [JSNum.ge] at h2
      | fin z =>
        simp only [JSNum.ge, decide_eq_true_eq] at *
        exact le_trans h2 h1
      | inf r => simpa [JSNum.ge] using h2
    | inf q =>
      cases u with
      | nan => simp [JSNum.ge] at h2
      | fin z =>
        simp only [JSNum.ge, Bool.not_eq_true'] at h1 h2
        rw [h1] at h2; exact absurd h2 (by simp)
      | inf r =>
        simp only [JSNum.ge, Bool.not_eq_true', Bool.or_eq_true] at *
        rcases h2 with h2 | h2
        · rw [h1] at h2; exact absurd h2 (by simp)
        · exact h2
  | inf p =>
    cases t with
    | nan => simp [JSNum.ge] at h1
    | fin y =>
      cases u with
      | nan => simp [JSNum.ge] at h2
      | fin z => simpa [JSNum.ge] using h1
      | inf r =>
        simp only [JSNum.ge] at *
        simp [h1]
    | inf q =>
      cases u with
      | nan => simp [JSNum.ge] at h2
      | fin z =>
        simp only [JSNum.ge, Bool.or_eq_true, Bool.not_eq_true'] at *
        rcases h1 with h1 | h1
        · exact h1
        · rw [h1] at h2; exact absurd h2 (by simp)
      | inf r =>
        cases p <;> cases q <;> cases r <;> simp [JSNum.ge] at *

/-- Exact arithmetic has the comparator laws. -/
theorem exactArith_ordered {F : Type} [LinearOrderedField F] (sqrtF : F → F) :
    (exactArith sqrtF).Ordered :=
  ⟨JSNum.isPositive_sub, JSNum.ge_total, JSNum.ge_trans⟩

theorem perm_sortInsert {α N : Type} (ar : Arith N) (cmp : α → α → N) (x : α) :
    ∀ l : List α, (sortInsert ar cmp x l).Perm (x :: l)
  | [] => List.Perm.refl _
  | y :: ys => by
    unfold sortInsert
    split
    · exact ((perm_sortInsert ar cmp x ys).cons y).trans (List.Perm.swap x y ys)
    · exact List.Perm.refl _

theorem perm_sortList {α N : Type} (ar : Arith N) (cmp : α → α → N) :
    ∀ l : List α, (sortList ar cmp l).Perm l
  | [] => List.Perm.refl _
  | x :: xs => by
    unfold sortList
    exact (perm_sortInsert ar cmp x _).trans ((perm_sortList ar cmp xs).cons x)

theorem map_sortInsert {α β N : Type} (ar : Arith N) (cmp : α → α → N)
    (cmp2 : β → β → N) (f : α → β) (hf : ∀ a b, cmp2 (f a) (f b) = cmp a b) (x : α) :
    ∀ l : List α, (sortInsert ar cmp x l).map f = sortInsert ar cmp2 (f x) (l.map f)
  | [] => rfl
  | y :: ys => by
    simp only [sortInsert, List.map_cons, hf]
    split
    · rw [List.map_cons, map_sortInsert ar cmp cmp2 f hf x ys]
    · rfl

theorem map_sortList {α β N : Type} (ar : Arith N) (cmp : α → α → N)
    (cmp2 : β → β → N) (f : α → β) (hf : ∀ a b, cmp2 (f a) (f b) = cmp a b) :
    ∀ l : List α, (sortList ar cmp l).map f = sortList ar cmp2 (l.map f)
  | [] => rfl
  | x :: xs => by
    simp only [sortList, List.map_cons]
    rw [map_sortInsert ar cmp cmp2 f hf, map_sortList ar cmp cmp2 f hf xs]

/-- Inserting an element that came before all of a sorted list keeps it sorted by
descending key, ties in index order. -/
theorem pairwise_sortInsert {α N : Type} (ar : Arith N) (hord : ar.Ordered) (key : α → N)
    (idx : α → Nat) (x : α) (hx : ar.isNumber (key x) = true) :
    ∀ l : List α, (∀ y ∈ l, ar.isNumber (key y) = true) → (∀ y ∈ l, idx x < idx y) →
      l.Pairwise (fun a b => ar.ge (key a) (key b) = true ∧
        (ar.ge (key b) (key a) = true → idx a < idx b)) →
      (sortInsert ar (fun a b => ar.sub (key b) (key a)) x l).Pairwise
        (fun a b => ar.ge (key a) (key b) = true ∧
          (ar.ge (key b) (key a) = true → idx a < idx b))
  | [], _, _, _ => by simp [sortInsert]
  | y :: ys, hnum, hidx, hp => by
    have hy := hnum y (List.mem_cons_self _ _)
    rw [List.pairwise_cons] at hp
    unfold sortInsert
    simp only [hord.isPositive_sub (key x) (key y) hx hy]
    cases hge : ar.ge (key x) (key y)
    · simp only [Bool.not_false, if_true]
      rw [List.pairwise_cons]
      refine ⟨?_, pairwise_sortInsert ar hord key idx x hx ys
        (fun z hz => hnum z (List.mem_cons_of_mem _ hz))
        (fun z hz => hidx z (List.mem_cons_of_mem _ hz)) hp.2⟩
      intro z hz
      rcases List.mem_cons.mp ((perm_sortInsert ar _ x ys).mem_iff.mp hz) with rfl | hz
      · refine ⟨?_, fun h => ?_⟩
        · rcases hord.ge_total (key z) (key y) hx hy with h | h
          · rw [hge] at h; exact absurd h (by simp)
          · exact h
        · rw [hge] at h; exact absurd h (by simp)
      · exact hp.1 z hz
    · simp only [Bool.not_true, Bool.false_eq_true, if_false]
      rw [List.pairwise_cons]
      refine ⟨?_, List.pairwise_cons.mpr hp⟩
      intro z hz
      refine ⟨?_, fun _ => hidx z hz⟩
      rcases List.mem_cons.mp hz with rfl | hz
      · exact hge
      · exact hord.ge_trans _ _ _ hge (hp.1 z hz).1

theorem pairwise_sortList {α N : Type} (ar : Arith N) (hord : ar.Ordered) (key : α → N)
    (idx : α → Nat) :
    ∀ l : List α, (∀ y ∈ l, ar.isNumber (key y) = true) →
      l.Pairwise (fun a b => idx a < idx b) →
      (sortList ar (fun a b => ar.sub (key b) (key a)) l).Pairwise
        (fun a b => ar.ge (key a) (key b) = true ∧
          (ar.ge (key b) (key a) = true → idx a < idx b))
  | [], _, _ => by simp [sortList]
  | x :: xs, hnum, hp => by
    rw [List.pairwise_cons] at hp
    unfold sortList
    apply pairwise_sortInsert ar hord key idx x (hnum x (List.mem_cons_self _ _))
    · intro y hy
      exact hnum y (List.mem_cons_of_mem _ ((perm_sortList ar _ xs).mem_iff.mp hy))
    · intro y hy
      exact hp.1 y ((perm_sortList ar _ xs).mem_iff.mp hy)
    · exact pairwise_sortList ar hord key idx xs
        (fun y hy => hnum y (List.mem_cons_of_mem _ hy)) hp.2

theorem pairwise_enumFrom {α : Type} :
    ∀ (l : List α) (n : Nat), (l.enumFrom n).Pairwise (fun a b => a.1 < b.1)
  | [], _ => by simp
  | x :: xs, n => by
    rw [List.enumFrom_cons, List.pairwise_cons]
    refine ⟨fun y hy => ?_, pairwise_enumFrom xs (n + 1)⟩
    have := List.le_fst_of_mem_enumFrom hy
    simp only
    omega

theorem jsSlice_zero {α : Type} (l : List α) (k : Int) (hk : 0 ≤ k) :
    jsSlice l 0 k = l.take k.toNat := by
  have h := jsSlice_window l 0 k
  rcases lt_or_eq_of_le hk with h0 | h0
  · simpa using h h0
  · subst h0
    simp [jsSlice]

/-- The value of `topKMemory` once the embedding call has answered `q`. -/
theorem topKMemory_ok {N : Type} (env : Env N) (st : ServerState N)
    (query : JSString) (k : Int) (q : List N) (hq : env.embed st.trace query = .ok q) :
    topKMemory env st query k =
      (.ok ((jsSlice (sortList env.arith (fun (a b : Chunk N × N) => env.arith.sub b.2 a.2)
          (st.memStore.map (fun s => (s, cosine env.arith q s.embedding)))) 0 k).map
          (fun x => x.1.text)),
        st.log (Event.embed query)) := by
  simp [topKMemory, hq, arrayMap, arraySort, arraySlice, ServerState.log]

theorem topKMemory_memStore {N : Type} (env : Env N)
    (st : ServerState N) (query : JSString) (k : Int) :
    (topKMemory env st query k).2.memStore = st.memStore
      ∧ (topKMemory env st query k).2.useInMemory = st.useInMemory
      ∧ (topKMemory env st query k).2.collection = st.collection
      ∧ (topKMemory env st query k).2.trace = st.trace ++ [Event.embed query] := by
  unfold topKMemory
  cases env.embed st.trace query <;> simp [arrayMap, arraySort, arraySlice, ServerState.log]

theorem cosine_isNumber (a b : List ℝ) (hlen : a.length = b.length)
    (ha : ∃ x ∈ a, x ≠ 0) (hb : ∃ y ∈ b, y ≠ 0) :
    (cosine (exactArith Real.sqrt) (a.map JSNum.fin) (b.map JSNum.fin)).isNumber = true := by
  have hden : Real.sqrt (normSq a) * Real.sqrt (normSq b) ≠ 0 :=
    mul_ne_zero (Real.sqrt_ne_zero'.mpr (normSq_pos a ha))
      (Real.sqrt_ne_zero'.mpr (normSq_pos b hb))
  rw [cosine_eq Real.sqrt a b hlen]
  simp only [JSNum.div, if_neg hden, JSNum.isNumber]

theorem JSNum.ge_nan_left {F : Type} [LinearOrderedField F] (t : JSNum F) :
    JSNum.ge JSNum.nan t = false := by
  cases t <;> rfl

theorem JSNum.ge_nan_right {F : Type} [LinearOrderedField F] (t : JSNum F) :
    JSNum.ge t JSNum.nan = false := by
  cases t <;> rfl

/-- C1 fails as stated. The store holds a chunk with the zero embedding `(0)` and then a
chunk with embedding `(1)`; the query vector is `(1)` and `k = 2`. The scores are `NaN` and
`1`, the comparator answers `NaN` (taken as equal) and the store order `a, b` is returned:
no arrangement of the two entries has non-increasing similarities. -/
theorem topKMemory_ranked_counterexample :
    (topKMemory (fixedEnv (exactArith Real.sqrt) (([1] : List ℝ).map JSNum.fin))
        (memState [finChunk "c0" "a" ([0] : List ℝ), finChunk "c1" "b" [1]])
        (ofString "q") 2).1 = .ok [ofString "a", ofString "b"]
      ∧ cosine (exactArith Real.sqrt) (([1] : List ℝ).map JSNum.fin)
          (([0] : List ℝ).map JSNum.fin) = JSNum.nan
      ∧ cosine (exactArith Real.sqrt) (([1] : List ℝ).map JSNum.fin)
          (([1] : List ℝ).map JSNum.fin) = JSNum.fin 1
      ∧ ¬ RankedBy (exactArith Real.sqrt)
          (fun s => cosine (exactArith Real.sqrt) (([1] : List ℝ).map JSNum.fin) s.embedding)
          [finChunk "c0" "a" ([0] : List ℝ), finChunk "c1" "b" [1]] 2
          [ofString "a", ofString "b"] := by
  have hA : cosine (exactArith Real.sqrt) (([1] : List ℝ).map JSNum.fin)
      (([0] : List ℝ).map JSNum.fin) = JSNum.nan := by
    rw [cosine_eq Real.sqrt [1] [0] rfl]; simp [dot, normSq, JSNum.div]
  have hB : cosine (exactArith Real.sqrt) (([1] : List ℝ).map JSNum.fin)
      (([1] : List ℝ).map JSNum.fin) = JSNum.fin 1 := by
    rw [cosine_eq Real.sqrt [1] [1] rfl]; simp [dot, normSq, JSNum.div]
  refine ⟨?_, hA, hB, ?_⟩
  · rw [topKMemory_ok _ _ _ _ (([1] : List ℝ).map JSNum.fin) rfl]
    simp only [memState, fixedEnv, finChunk, List.map_cons, List.map_nil] at hA hB ⊢
    simp only [hA, hB]
    simp [sortList, sortInsert, exactArith, JSNum.sub, JSNum.neg, JSNum.add,
      JSNum.isPositive, jsSlice]
  · rintro ⟨L, hperm, hpw, -⟩
    have hmem : ((0 : Nat), finChunk "c0" "a" ([0] : List ℝ)) ∈ L :=
      hperm.mem_iff.mpr (by simp [List.enum])
    have hlen : L.length = 2 := by rw [hperm.length_eq]; rfl
    match L, hlen with
    | [x, y], _ =>
      have hxy := (List.pairwise_cons.mp hpw).1 y (List.mem_singleton.mpr rfl)
      simp only [List.mem_cons, List.mem_singleton, List.not_mem_nil, or_false] at hmem
      rcases hmem with h | h
      · rw [← h] at hxy
        have h2 : JSNum.ge (cosine (exactArith Real.sqrt) (([1] : List ℝ).map JSNum.fin)
            (([0] : List ℝ).map JSNum.fin)) _ = true := hxy.1
        rw [hA, JSNum.ge_nan_left] at h2
        exact absurd h2 (by simp)
      · rw [← h] at hxy
        have h2 : JSNum.ge _ (cosine (exactArith Real.sqrt) (([1] : List ℝ).map JSNum.fin)
            (([0] : List ℝ).map JSNum.fin)) = true := hxy.1
        rw [hA, JSNum.ge_nan_right] at h2
        exact absurd h2 (by simp)

/-- C1, amended. In any arithmetic with the comparator laws (`Arith.Ordered`, which the
doubles of the engine have), when the embedding call answers `q`, `k ≥ 0`, and the
similarity `cosine(q, e)` computed for every stored embedding `e` is a number (not `NaN`),
`topKMemory` returns the texts of the first `min(k, n)` entries of the store sorted by
descending computed similarity to `q`: at most `k` and at most `n` texts, similarities
non-increasing along the result, and entries of equal similarity in insertion order. -/
theorem topKMemory_ranked {N : Type} (env : Env N) (hord : env.arith.Ordered)
    (st : ServerState N) (query : JSString) (k : Int) (q : List N) (hk : 0 ≤ k)
    (hq : env.embed st.trace query = .ok q)
    (hnum : ∀ s ∈ st.memStore,
      env.arith.isNumber (cosine env.arith q s.embedding) = true) :
    ∃ texts : List JSString, (topKMemory env st query k).1 = .ok texts
      ∧ RankedBy env.arith (fun s => cosine env.arith q s.embedding) st.memStore
          k.toNat texts
      ∧ texts.length = min k.toNat st.memStore.length
      ∧ texts.length ≤ k.toNat ∧ texts.length ≤ st.memStore.length := by
  have hperm := perm_sortList env.arith
    (fun (a b : Nat × Chunk N) =>
      env.arith.sub (cosine env.arith q b.2.embedding) (cosine env.arith q a.2.embedding))
    st.memStore.enum
  have hLlen := hperm.length_eq
  rw [List.enum_length] at hLlen
  have hmap := map_sortList env.arith
    (fun (a b : Nat × Chunk N) =>
      env.arith.sub (cosine env.arith q b.2.embedding) (cosine env.arith q a.2.embedding))
    (fun (a b : Chunk N × N) => env.arith.sub b.2 a.2)
    (fun (x : Nat × Chunk N) => (x.2, cosine env.arith q x.2.embedding))
    (fun _ _ => rfl) st.memStore.enum
  have henum : st.memStore.enum.map
      (fun (x : Nat × Chunk N) => (x.2, cosine env.arith q x.2.embedding))
      = st.memStore.map (fun s => (s, cosine env.arith q s.embedding)) := by
    have h := List.enumFrom_map_snd 0 st.memStore
    conv_rhs => rw [← h]
    rw [List.map_map]
    rfl
  rw [henum] at hmap
  have htexts : (jsSlice (sortList env.arith (fun (a b : Chunk N × N) => env.arith.sub b.2 a.2)
        (st.memStore.map (fun s => (s, cosine env.arith q s.embedding)))) 0 k).map
        (fun x => x.1.text)
      = ((sortList env.arith (fun (a b : Nat × Chunk N) =>
          env.arith.sub (cosine env.arith q b.2.embedding)
            (cosine env.arith q a.2.embedding))
          st.memStore.enum).take (min k.toNat st.memStore.length)).map (fun x => x.2.text) := by
    rw [← hmap, jsSlice_zero _ _ hk, ← List.map_take, List.map_map]
    congr 1
    rw [List.take_eq_take, hLlen]
    omega
  have hlen : ((jsSlice (sortList env.arith (fun (a b : Chunk N × N) => env.arith.sub b.2 a.2)
        (st.memStore.map (fun s => (s, cosine env.arith q s.embedding)))) 0 k).map
        (fun x => x.1.text)).length = min k.toNat st.memStore.length := by
    rw [htexts, List.length_map, List.length_take, hLlen]
    omega
  refine ⟨_, by rw [topKMemory_ok env st query k q hq], ⟨_, hperm, ?_, htexts⟩, hlen,
    by rw [hlen]; omega, by rw [hlen]; omega⟩
  exact pairwise_sortList env.arith hord
    (fun (x : Nat × Chunk N) => cosine env.arith q x.2.embedding)
    Prod.fst st.memStore.enum
    (fun y hy => hnum y.2 (List.snd_mem_of_mem_enumFrom hy))
    (pairwise_enumFrom st.memStore 0)

/-- C1, amended, in exact real arithmetic on a store of three chunks with embeddings
`(1, 0)`, `(0, 1)`, `(0, 2)`, query vector `(0, 1)` and `k = 2`. -/
theorem topKMemory_ranked_witness :
    ∃ texts : List JSString,
      (topKMemory (fixedEnv (exactArith Real.sqrt) (([0, 1] : List ℝ).map JSNum.fin))
        (memState [finChunk "c0" "a" ([1, 0] : List ℝ), finChunk "c1" "b" [0, 1],
          finChunk "c2" "c" [0, 2]]) (ofString "q") 2).1 = .ok texts
      ∧ RankedBy (exactArith Real.sqrt)
          (fun s => cosine (exactArith Real.sqrt) (([0, 1] : List ℝ).map JSNum.fin) s.embedding)
          [finChunk "c0" "a" ([1, 0] : List ℝ), finChunk "c1" "b" [0, 1],
            finChunk "c2" "c" [0, 2]] 2 texts
      ∧ texts.length = 2 := by
  obtain ⟨texts, h1, h2, h3, -, -⟩ := topKMemory_ranked
    (fixedEnv (exactArith Real.sqrt) (([0, 1] : List ℝ).map JSNum.fin))
    (exactArith_ordered Real.sqrt)
    (memState [finChunk "c0" "a" ([1, 0] : List ℝ), finChunk "c1" "b" [0, 1],
      finChunk "c2" "c" [0, 2]]) (ofString "q") 2 (([0, 1] : List ℝ).map JSNum.fin)
    (by decide) rfl
    (by
      intro s hs
      simp only [memState, List.mem_cons, List.mem_singleton, List.not_mem_nil, or_false] at hs
      rcases hs with rfl | rfl | rfl
      · exact cosine_isNumber [0, 1] [1, 0] rfl ⟨1, by simp, by norm_num⟩
          ⟨1, by simp, by norm_num⟩
      · exact cosine_isNumber [0, 1] [0, 1] rfl ⟨1, by simp, by norm_num⟩
          ⟨1, by simp, by norm_num⟩
      · exact cosine_isNumber [0, 1] [0, 2] rfl ⟨1, by simp, by norm_num⟩
          ⟨2, by simp, by norm_num⟩)
  exact ⟨texts, h1, h2, h3⟩

/-- C10. `topKMemory` leaves `memStore` as it was, contents and order: the array sorted in
place is the one returned by `map`. Hence a second call on the state left by the first,
with the embedding service answering the same query vector, returns the same result and
again leaves the store as it was. -/
theorem topKMemory_repeatable {N : Type} (env : Env N)
    (st : ServerState N) (query : JSString) (k : Int) :
    (topKMemory env st query k).2.memStore = st.memStore
      ∧ ∀ q : List N, env.embed st.trace query = .ok q →
          env.embed (topKMemory env st query k).2.trace query = .ok q →
          (topKMemory env (topKMemory env st query k).2 query k).1
              = (topKMemory env st query k).1
            ∧ (topKMemory env (topKMemory env st query k).2 query k).2.memStore
              = st.memStore := by
  refine ⟨(topKMemory_memStore env st query k).1, fun q h1 h2 => ?_⟩
  have hm := (topKMemory_memStore env st query k).1
  refine ⟨?_, by rw [(topKMemory_memStore env _ query k).1, hm]⟩
  rw [topKMemory_ok env _ query k q h2, topKMemory_ok env st query k q h1]
  simp only [ServerState.log]

/-- C10 on a store of two chunks: two successive calls return the same texts. -/
theorem topKMemory_repeatable_witness :
    (topKMemory (fixedEnv (exactArith Real.sqrt) (([0, 1] : List ℝ).map JSNum.fin))
        (topKMemory (fixedEnv (exactArith Real.sqrt) (([0, 1] : List ℝ).map JSNum.fin))
          (memState [finChunk "c0" "a" ([1, 0] : List ℝ), finChunk "c1" "b" [0, 1]])
          (ofString "q") 2).2 (ofString "q") 2).1
      = (topKMemory (fixedEnv (exactArith Real.sqrt) (([0, 1] : List ℝ).map JSNum.fin))
          (memState [finChunk "c0" "a" ([1, 0] : List ℝ), finChunk "c1" "b" [0, 1]])
          (ofString "q") 2).1 :=
  ((topKMemory_repeatable
    (fixedEnv (exactArith Real.sqrt) (([0, 1] : List ℝ).map JSNum.fin))
    (memState [finChunk "c0" "a" ([1, 0] : List ℝ), finChunk "c1" "b" [0, 1]])
    (ofString "q") 2).2 (([0, 1] : List ℝ).map JSNum.fin) rfl rfl).1

/-! ## Ingestion -/

theorem addChunksLoop_cons_error {F : Type} (env : Env F) (c : JSString)
    (rest : List JSString) (i : Nat) (st : ServerState F) (e : String)
    (hE : env.embed st.trace c = .error e) :
    addChunksLoop env (c :: rest) i st = (.error e, st.log (Event.embed c)) := by
  simp only [addChunksLoop, hE]

theorem addChunksLoop_cons_mem {F : Type} (env : Env F) (c : JSString)
    (rest : List JSString) (i : Nat) (st : ServerState F) (vec : List F)
    (hE : env.embed st.trace c = .ok vec) (hm : st.useInMemory = true) :
    addChunksLoop env (c :: rest) i st
      = addChunksLoop env rest (i + 1)
          { st.log (Event.embed c) with
            memStore := st.memStore ++
              [{ id := chunkId (env.now (st.trace ++ [Event.embed c])) i, text := c,
                 embedding := vec }] } := by
  simp [addChunksLoop, hE, hm, ServerState.log]

theorem addChunksLoop_cons_null {F : Type} (env : Env F) (c : JSString)
    (rest : List JSString) (i : Nat) (st : ServerState F) (vec : List F)
    (hE : env.embed st.trace c = .ok vec) (hm : st.useInMemory = false)
    (hc : st.collection = none) :
    (addChunksLoop env (c :: rest) i st).2 = st.log (Event.embed c) := by
  simp [addChunksLoop, hE, hm, hc, ServerState.log]

theorem addChunksLoop_cons_add_error {F : Type} (env : Env F) (c : JSString)
    (rest : List JSString) (i : Nat) (st : ServerState F) (vec : List F) (col e : String)
    (hE : env.embed st.trace c = .ok vec) (hm : st.useInMemory = false)
    (hc : st.collection = some col)
    (hA : env.collectionAdd (st.trace ++ [Event.embed c])
      (chunkId (env.now (st.trace ++ [Event.embed c])) i) vec c = .error e) :
    (addChunksLoop env (c :: rest) i st).2
      = (st.log (Event.embed c)).log
          (Event.collectionAdd (chunkId (env.now (st.trace ++ [Event.embed c])) i) vec c) := by
  simp [addChunksLoop, hE, hm, hc, hA, ServerState.log]

theorem addChunksLoop_cons_add_ok {F : Type} (env : Env F) (c : JSString)
    (rest : List JSString) (i : Nat) (st : ServerState F) (vec : List F) (col : String)
    (hE : env.embed st.trace c = .ok vec) (hm : st.useInMemory = false)
    (hc : st.collection = some col)
    (hA : env.collectionAdd (st.trace ++ [Event.embed c])
      (chunkId (env.now (st.trace ++ [Event.embed c])) i) vec c = .ok ()) :
    addChunksLoop env (c :: rest) i st
      = addChunksLoop env rest (i + 1) ((st.log (Event.embed c)).log
          (Event.collectionAdd (chunkId (env.now (st.trace ++ [Event.embed c])) i) vec c)) := by
  simp [addChunksLoop, hE, hm, hc, hA, ServerState.log]

/-- What `addChunks` never touches, and what it adds to the trace. -/
theorem addChunksLoop_frame {F : Type} (env : Env F) :
    ∀ (chunks : List JSString) (i : Nat) (st : ServerState F),
      (addChunksLoop env chunks i st).2.useInMemory = st.useInMemory
        ∧ (addChunksLoop env chunks i st).2.collection = st.collection
        ∧ (addChunksLoop env chunks i st).2.chroma = st.chroma
        ∧ ∃ new : List (Event F), (addChunksLoop env chunks i st).2.trace = st.trace ++ new
            ∧ (st.useInMemory = true → ∀ e ∈ new, e.isRemote = false) := by
  intro chunks
  induction chunks with
  | nil =>
    intro i st
    exact ⟨rfl, rfl, rfl, [], by simp [addChunksLoop], by simp⟩
  | cons c rest ih =>
    intro i st
    cases hE : env.embed st.trace c with
    | error e =>
      rw [addChunksLoop_cons_error env c rest i st e hE]
      exact ⟨rfl, rfl, rfl, [Event.embed c], rfl, by simp [Event.isRemote]⟩
    | ok vec =>
      cases hm : st.useInMemory with
      | true =>
        rw [addChunksLoop_cons_mem env c rest i st vec hE hm]
        obtain ⟨h1, h2, h3, new, h4, h5⟩ := ih (i + 1)
          { st.log (Event.embed c) with
            memStore := st.memStore ++
              [{ id := chunkId (env.now (st.trace ++ [Event.embed c])) i, text := c,
                 embedding := vec }] }
        refine ⟨h1.trans hm, h2, h3, Event.embed c :: new, ?_, ?_⟩
        · rw [h4]; simp [ServerState.log]
        · intro _ e he
          rcases List.mem_cons.mp he with rfl | he
          · rfl
          · exact h5 hm e he
      | false =>
        cases hc : st.collection with
        | none =>
          rw [addChunksLoop_cons_null env c rest i st vec hE hm hc]
          exact ⟨hm, hc, rfl, [Event.embed c], rfl, fun h => absurd h (by simp)⟩
        | some col =>
          cases hA : env.collectionAdd (st.trace ++ [Event.embed c])
              (chunkId (env.now (st.trace ++ [Event.embed c])) i) vec c with
          | error e =>
            rw [addChunksLoop_cons_add_error env c rest i st vec col e hE hm hc hA]
            exact ⟨hm, hc, rfl,
              [Event.embed c, Event.collectionAdd
                (chunkId (env.now (st.trace ++ [Event.embed c])) i) vec c],
              by simp [ServerState.log], fun h => absurd h (by simp)⟩
          | ok u =>
            rw [addChunksLoop_cons_add_ok env c rest i st vec col hE hm hc hA]
            obtain ⟨h1, h2, h3, new, h4, -⟩ := ih (i + 1) ((st.log (Event.embed c)).log
              (Event.collectionAdd (chunkId (env.now (st.trace ++ [Event.embed c])) i) vec c))
            refine ⟨h1.trans hm, h2.trans hc, h3,
              Event.embed c :: Event.collectionAdd
                (chunkId (env.now (st.trace ++ [Event.embed c])) i) vec c :: new, ?_,
              fun h => absurd h (by simp)⟩
            rw [h4]
            simp [ServerState.log]

/-- In memory, with every embedding call answered, the loop appends one entry per chunk. -/
theorem addChunksLoop_inMemory {F : Type} (env : Env F) :
    ∀ (chunks : List JSString) (i : Nat) (st : ServerState F) (vecs : List (List F)),
      st.useInMemory = true → vecs.length = chunks.length →
      (∀ (j : Nat) (hj : j < chunks.length) (hv : j < vecs.length),
        env.embed (st.trace ++ (chunks.take j).map Event.embed) (chunks.get ⟨j, hj⟩)
          = .ok (vecs.get ⟨j, hv⟩)) →
      ∃ new : List (Chunk F),
        addChunksLoop env chunks i st
            = (.ok (), { st with memStore := st.memStore ++ new,
                                 trace := st.trace ++ chunks.map Event.embed })
          ∧ new.map (fun c => (c.text, c.embedding)) = chunks.zip vecs := by
  intro chunks
  induction chunks with
  | nil =>
    intro i st vecs _ _ _
    exact ⟨[], by simp [addChunksLoop], by simp⟩
  | cons c rest ih =>
    intro i st vecs hm hlen hemb
    match vecs, hlen, hemb with
    | v :: vs, hlen, hemb =>
      have h0 := hemb 0 (by simp) (by simp)
      simp only [List.take_zero, List.map_nil, List.append_nil, List.get_eq_getElem,
        List.getElem_cons_zero] at h0
      rw [addChunksLoop_cons_mem env c rest i st v h0 hm]
      obtain ⟨new, hnew, hzip⟩ := ih (i + 1)
        { st.log (Event.embed c) with
          memStore := st.memStore ++
            [{ id := chunkId (env.now (st.trace ++ [Event.embed c])) i, text := c,
               embedding := v }] } vs hm (by simpa using hlen)
        (by
          intro j hj hv
          have := hemb (j + 1) (by simpa using hj) (by simpa using hv)
          simpa [ServerState.log] using this)
      refine ⟨{ id := chunkId (env.now (st.trace ++ [Event.embed c])) i, text := c,
                embedding := v } :: new, ?_, ?_⟩
      · rw [hnew]; simp [ServerState.log]
      · simp [hzip]

/-- C6. In memory, when every embedding call is answered, `addChunks(chunks)` completes and
leaves the store equal to its previous contents followed by one new entry per chunk, in
chunk order, the i-th holding the text `chunks[i]` and the embedding returned for it; the
size grows by `length(chunks)`. -/
theorem addChunks_inMemory {F : Type} (env : Env F) (st : ServerState F)
    (chunks : List JSString) (vecs : List (List F))
    (hmem : st.useInMemory = true) (hlen : vecs.length = chunks.length)
    (hemb : ∀ (j : Nat) (hj : j < chunks.length) (hv : j < vecs.length),
      env.embed (st.trace ++ (chunks.take j).map Event.embed) (chunks.get ⟨j, hj⟩)
        = .ok (vecs.get ⟨j, hv⟩)) :
    ∃ (st2 : ServerState F) (new : List (Chunk F)),
      addChunks env st chunks = (.ok (), st2)
        ∧ st2.memStore = st.memStore ++ new
        ∧ new.map (fun c => (c.text, c.embedding)) = chunks.zip vecs
        ∧ new.length = chunks.length
        ∧ st2.memStore.length = st.memStore.length + chunks.length := by
  obtain ⟨new, h1, h2⟩ := addChunksLoop_inMemory env chunks 0 st vecs hmem hlen hemb
  have hn : new.length = chunks.length := by
    have := congrArg List.length h2
    simpa [hlen] using this
  exact ⟨_, new, h1, rfl, h2, hn, by simp [hn]⟩

/-- C6 on two chunks added to a store of one. -/
theorem addChunks_inMemory_witness :
    ∃ (st2 : ServerState (JSNum ℚ)) (new : List (Chunk (JSNum ℚ))),
      addChunks ratEnv (memState [⟨"c0", ofString "z", [JSNum.fin 1]⟩])
          [ofString "a", ofString "b"] = (.ok (), st2)
        ∧ st2.memStore = [⟨"c0", ofString "z", [JSNum.fin 1]⟩] ++ new
        ∧ new.map (fun c => (c.text, c.embedding))
            = [(ofString "a", [JSNum.fin 1]), (ofString "b", [JSNum.fin 1])]
        ∧ st2.memStore.length = 3 := by
  obtain ⟨st2, new, h1, h2, h3, -, h5⟩ := addChunks_inMemory ratEnv
    (memState [⟨"c0", ofString "z", [JSNum.fin 1]⟩]) [ofString "a", ofString "b"]
    [[JSNum.fin 1], [JSNum.fin 1]]
    rfl rfl
    (by
      intro j hj hv
      match j, hj, hv with
      | 0, _, _ => rfl
      | 1, _, _ => rfl)
  exact ⟨st2, new, h1, h2, h3, h5⟩

theorem chunkStep_default : chunkStep 800 120 = 680 := by decide

/-- A text shorter than 800 whose part from offset 680 on is blank gives one chunk. -/
theorem chunkText_single (text : JSString) (hnb : isBlank text = false)
    (hlen : text.length < 800) (htail : isBlank (text.drop 680) = true) :
    chunkText text 800 120 = [text] := by
  have hpos : 1 ≤ text.length := by
    cases text with
    | nil => simp [isBlank] at hnb
    | cons x xs => simp
  rw [chunkText_eq_filter text 800 120 (by decide), chunkStep_default]
  unfold specWindows ceilDiv
  have h800 : (800 : Int).toNat = 800 := rfl
  rw [h800]
  rcases Nat.lt_or_ge 680 text.length with h | h
  · have e : (text.length + 680 - 1) / 680 = 2 :=
      Nat.div_eq_of_lt_le (by omega) (by omega)
    have r2 : List.range 2 = [0, 1] := rfl
    rw [e, r2]
    simp only [List.map_cons, List.map_nil, Nat.zero_mul, Nat.one_mul, List.drop_zero]
    rw [List.take_of_length_le (by omega : text.length ≤ 800),
      List.take_of_length_le (by rw [List.length_drop]; omega)]
    simp [List.filter, hnb, htail]
  · have e : (text.length + 680 - 1) / 680 = 1 :=
      Nat.div_eq_of_lt_le (by omega) (by omega)
    have r1 : List.range 1 = [0] := rfl
    rw [e, r1]
    simp only [List.map_cons, List.map_nil, Nat.zero_mul, List.drop_zero]
    rw [List.take_of_length_le (by omega : text.length ≤ 800)]
    simp [List.filter, hnb]

/-- The upload of a text that gives one chunk, in memory, with the embedding answered. -/
theorem indexText_single {F : Type} (env : Env F) (st : ServerState F) (text : JSString)
    (vec : List F) (hnb : isBlank text = false) (hone : chunkText text 800 120 = [text])
    (hm : st.useInMemory = true)
    (hE : env.embed (st.trace ++ [Event.chunk text]) text = .ok vec) :
    (indexText env st text).1 = ⟨200, .message "Uploaded. Indexed 1 chunks."⟩
      ∧ (indexText env st text).2.memStore.length = st.memStore.length + 1 := by
  have htrim : (jsTrim text).isEmpty = false := by
    cases h : jsTrim text with
    | nil => rw [(jsTrim_eq_nil_iff text).mp h] at hnb; exact absurd hnb (by simp)
    | cons x xs => rfl
  have hadd : addChunks env (st.log (Event.chunk text)) [text]
      = (.ok (), { (st.log (Event.chunk text)).log (Event.embed text) with
          memStore := st.memStore ++
            [{ id := chunkId (env.now (st.trace ++ [Event.chunk text] ++ [Event.embed text])) 0,
               text := text, embedding := vec }] }) := by
    unfold addChunks
    rw [addChunksLoop_cons_mem env text [] 0 (st.log (Event.chunk text)) vec hE hm]
    rfl
  simp only [indexText, htrim, hone, hadd, Bool.false_eq_true, if_false,
    List.length_singleton]
  exact ⟨by decide, by simp⟩

set_option maxRecDepth 100000 in
/-- C8 fails as stated. A text of 700 letters `a` is not blank and is shorter than 800, but
the loop runs again at `start = 680 < 700` and `chunkText` returns two chunks: the text and
its last 20 letters. -/
theorem chunkText_short_counterexample :
    isBlank (List.replicate 700 97) = false ∧ (List.replicate 700 97).length < 800
      ∧ chunkText (List.replicate 700 97) 800 120
          = [List.replicate 700 97, List.replicate 20 97]
      ∧ chunkText (List.replicate 700 97) 800 120 ≠ [List.replicate 700 97] := by
  have h : chunkText (List.replicate 700 97) 800 120
      = [List.replicate 700 97, List.replicate 20 97] := by
    rw [chunkText_eq_filter _ _ _ (by decide)]
    decide
  refine ⟨by decide, by decide, h, ?_⟩
  rw [h]
  decide

/-- C8, amended. With `size = 800` and `overlap = 120`, for every text that is not blank,
is shorter than 800 and whose part from offset 680 on is empty or blank (so every non-blank
text of at most 680 units), `chunkText` returns exactly one chunk, the text itself, and
ingesting it in memory grows the store by exactly 1. -/
theorem chunkText_short (text : JSString) (hnb : isBlank text = false)
    (hlen : text.length < 800) (htail : isBlank (text.drop 680) = true) :
    chunkText text 800 120 = [text]
      ∧ ∀ (F : Type) (env : Env F) (st : ServerState F) (vec : List F),
          st.useInMemory = true →
          env.embed (st.trace ++ [Event.chunk text]) text = .ok vec →
          (indexText env st text).1 = ⟨200, .message "Uploaded. Indexed 1 chunks."⟩
            ∧ (indexText env st text).2.memStore.length = st.memStore.length + 1 :=
  ⟨chunkText_single text hnb hlen htail, fun _ env st vec hm hE =>
    indexText_single env st text vec hnb (chunkText_single text hnb hlen htail) hm hE⟩

/-- C8, amended, at the text of scenario 1. -/
theorem chunkText_short_witness :
    chunkText (ofString "The sky is blue. Grass is green.") 800 120
        = [ofString "The sky is blue. Grass is green."]
      ∧ (indexText ratEnv (memState [])
          (ofString "The sky is blue. Grass is green.")).2.memStore.length = 0 + 1 :=
  ⟨(chunkText_short (ofString "The sky is blue. Grass is green.") (by decide) (by decide)
      (by decide)).1,
    ((chunkText_short (ofString "The sky is blue. Grass is green.") (by decide) (by decide)
      (by decide)).2 (JSNum ℚ) ratEnv (memState []) [JSNum.fin 1] rfl rfl).2⟩

/-! ## The handlers -/

theorem addChunks_frame {F : Type} (env : Env F) (st : ServerState F)
    (chunks : List JSString) :
    (addChunks env st chunks).2.useInMemory = st.useInMemory
      ∧ (addChunks env st chunks).2.collection = st.collection
      ∧ ∃ new : List (Event F), (addChunks env st chunks).2.trace = st.trace ++ new
          ∧ (st.useInMemory = true → ∀ e ∈ new, e.isRemote = false) := by
  obtain ⟨h1, h2, -, h4⟩ := addChunksLoop_frame env chunks 0 st
  exact ⟨h1, h2, h4⟩

theorem indexText_frame {F : Type} (env : Env F) (st : ServerState F) (text : JSString) :
    (indexText env st text).1.status ≠ 415
      ∧ (indexText env st text).2.useInMemory = st.useInMemory
      ∧ (indexText env st text).2.collection = st.collection := by
  unfold indexText
  split
  · exact ⟨by simp, rfl, rfl⟩
  · obtain ⟨h1, h2, -⟩ := addChunks_frame env (st.log (Event.chunk text)) (chunkText text 800 120)
    simp only []
    split
    · next e st1 heq =>
      rw [heq] at h1 h2
      exact ⟨by simp, h1, h2⟩
    · next a st1 heq =>
      rw [heq] at h1 h2
      exact ⟨by simp, h1, h2⟩

theorem uploadHandler_frame {F : Type} (env : Env F) (st : ServerState F)
    (file : Option UploadedFile) :
    (uploadHandler env st file).2.useInMemory = st.useInMemory
      ∧ (uploadHandler env st file).2.collection = st.collection := by
  unfold uploadHandler
  split
  · exact ⟨rfl, rfl⟩
  · next f =>
    simp only []
    split
    · split
      · exact ⟨rfl, rfl⟩
      · next text _ =>
        obtain ⟨-, h1, h2⟩ := indexText_frame env (st.log (Event.pdfParse f.buffer)) text
        exact ⟨h1, h2⟩
    · split
      · split
        · exact ⟨rfl, rfl⟩
        · next text _ =>
          obtain ⟨-, h1, h2⟩ := indexText_frame env (st.log (Event.mammoth f.buffer)) text
          exact ⟨h1, h2⟩
      · split
        · obtain ⟨-, h1, h2⟩ := indexText_frame env (st.log (Event.decodeText f.buffer))
            (env.decodeUtf8 f.buffer)
          exact ⟨h1, h2⟩
        · exact ⟨rfl, rfl⟩

/-- The status 415 is sent exactly for a file that is not recognised, and then nothing else
is done. -/
theorem uploadHandler_415 {F : Type} (env : Env F) (st : ServerState F) (f : UploadedFile) :
    ((uploadHandler env st (some f)).1.status = 415 ↔ recognised f = false)
      ∧ (recognised f = false → (uploadHandler env st (some f)).2 = st) := by
  unfold uploadHandler recognised
  simp only []
  by_cases h1 : jsIncludes f.mimetype (ofString "pdf") = true
  · simp only [h1, if_true, Bool.true_or]
    refine ⟨⟨fun h => ?_, fun h => absurd h (by simp)⟩, fun h => absurd h (by simp)⟩
    cases hp : env.pdfParse st.trace f.buffer with
    | error e => rw [hp] at h; simp at h
    | ok text =>
      rw [hp] at h
      exact absurd h (indexText_frame env (st.log (Event.pdfParse f.buffer)) text).1
  · by_cases h2 : (jsIncludes f.mimetype (ofString "word")
        || jsEndsWith f.originalname (ofString ".docx")) = true
    · simp only [h1, h2, if_true, if_false, Bool.true_or, Bool.or_true]
      refine ⟨⟨fun h => ?_, fun h => absurd h (by simp)⟩, fun h => absurd h (by simp)⟩
      cases hp : env.mammoth st.trace f.buffer with
      | error e => rw [hp] at h; simp at h
      | ok text =>
        rw [hp] at h
        exact absurd h (indexText_frame env (st.log (Event.mammoth f.buffer)) text).1
    · by_cases h3 : (jsIncludes f.mimetype (ofString "text")
          || matchesTxtMd f.originalname) = true
      · simp only [h1, h2, h3, if_true, if_false, Bool.or_true]
        refine ⟨⟨fun h => ?_, fun h => absurd h (by simp)⟩, fun h => absurd h (by simp)⟩
        exact absurd h (indexText_frame env (st.log (Event.decodeText f.buffer))
          (env.decodeUtf8 f.buffer)).1
      · simp only [h1, h2, h3, if_false]
        simp only [Bool.not_eq_true] at h1 h2 h3
        simp [h1, h2, h3]

/-- C9 fails as stated. A file of MIME type `application/zip` named `notes.docx` is taken as
a DOCX file: the extractor is called, its text is chunked, embedded and stored, and the
response is 200. -/
theorem upload_unsupported_counterexample :
    (uploadHandler (docxEnv (ofString "hello")) (memState [])
        (some ⟨ofString "application/zip", ofString "notes.docx", []⟩)).1
        = ⟨200, .message "Uploaded. Indexed 1 chunks."⟩
      ∧ (uploadHandler (docxEnv (ofString "hello")) (memState [])
          (some ⟨ofString "application/zip", ofString "notes.docx", []⟩)).2.memStore.length = 1
      ∧ (uploadHandler (docxEnv (ofString "hello")) (memState [])
          (some ⟨ofString "application/zip", ofString "notes.docx", []⟩)).1.status ≠ 415 := by
  have h1 : jsIncludes (ofString "application/zip") (ofString "pdf") = false := by decide
  have h2 : (jsIncludes (ofString "application/zip") (ofString "word")
      || jsEndsWith (ofString "notes.docx") (ofString ".docx")) = true := by decide
  have hone : chunkText (ofString "hello") 800 120 = [ofString "hello"] :=
    chunkText_single _ (by decide) (by decide) (by decide)
  have hidx := indexText_single (docxEnv (ofString "hello"))
    ((memState []).log (Event.mammoth [])) (ofString "hello") [JSNum.fin 1] (by decide) hone
    rfl rfl
  have heq : uploadHandler (docxEnv (ofString "hello")) (memState [])
      (some ⟨ofString "application/zip", ofString "notes.docx", []⟩)
      = indexText (docxEnv (ofString "hello")) ((memState []).log (Event.mammoth []))
          (ofString "hello") := by
    simp only [uploadHandler, h1, h2, if_true, if_false, Bool.false_eq_true, docxEnv]
  rw [heq]
  refine ⟨hidx.1, hidx.2, ?_⟩
  rw [hidx.1]
  decide

/-- C9, amended. The upload handler answers 415 exactly when a file is present and is not
recognised: its MIME type contains none of `pdf`, `word`, `text` and its name ends in none
of `.docx`, `.txt`, `.md`. It then leaves the state and the trace as they were: no text
extraction, no chunking, no embedding. So a file of MIME type `application/zip` gets 415
when its name ends in none of `.docx`, `.txt`, `.md`. -/
theorem upload_unsupported {F : Type} (env : Env F) (st : ServerState F)
    (file : Option UploadedFile) :
    ((uploadHandler env st file).1.status = 415 ↔ ∃ f, file = some f ∧ recognised f = false)
      ∧ ((uploadHandler env st file).1.status = 415 → (uploadHandler env st file).2 = st)
      ∧ (∀ f, file = some f → f.mimetype = ofString "application/zip" →
          jsEndsWith f.originalname (ofString ".docx") = false →
          matchesTxtMd f.originalname = false →
          (uploadHandler env st file).1.status = 415
            ∧ (uploadHandler env st file).2 = st
            ∧ ∀ e ∈ (uploadHandler env st file).2.trace.drop st.trace.length,
                e.isIngest = false) := by
  cases file with
  | none =>
    refine ⟨⟨fun h => ?_, fun ⟨f, hf, _⟩ => by simp at hf⟩, fun h => ?_, fun f hf => by simp at hf⟩
    · simp [uploadHandler] at h
    · simp [uploadHandler] at h
  | some f =>
    obtain ⟨h1, h2⟩ := uploadHandler_415 env st f
    refine ⟨⟨fun h => ⟨f, rfl, h1.mp h⟩, fun ⟨g, hg, hr⟩ => ?_⟩, fun h => h2 (h1.mp h), ?_⟩
    · cases hg; exact h1.mpr hr
    · intro g hg hmime hdocx hmd
      cases hg
      have hr : recognised f = false := by
        unfold recognised
        rw [hmime, hdocx, hmd]
        decide
      refine ⟨h1.mpr hr, h2 hr, ?_⟩
      rw [h2 hr]
      simp

/-- C9, amended, at a file of MIME type `application/zip` named `archive.zip`. -/
theorem upload_unsupported_witness :
    (uploadHandler ratEnv (memState [])
        (some ⟨ofString "application/zip", ofString "archive.zip", []⟩)).1.status = 415
      ∧ (uploadHandler ratEnv (memState [])
          (some ⟨ofString "application/zip", ofString "archive.zip", []⟩)).2 = memState [] :=
  ⟨((upload_unsupported ratEnv (memState [])
      (some ⟨ofString "application/zip", ofString "archive.zip", []⟩)).2.2 _ rfl rfl
      (by decide) (by decide)).1,
    ((upload_unsupported ratEnv (memState [])
      (some ⟨ofString "application/zip", ofString "archive.zip", []⟩)).2.2 _ rfl rfl
      (by decide) (by decide)).2.1⟩

/-! ## The selected variant -/

theorem retrieveTopK_frame {F : Type} (env : Env F)
    (st : ServerState F) (query : JSString) (k : Int) :
    (retrieveTopK env st query k).2.useInMemory = st.useInMemory
      ∧ (retrieveTopK env st query k).2.collection = st.collection
      ∧ (st.useInMemory = true →
          (retrieveTopK env st query k).2.trace = st.trace ++ [Event.embed query]) := by
  unfold retrieveTopK
  cases hm : st.useInMemory with
  | true =>
    obtain ⟨-, h2, h3, h4⟩ := topKMemory_memStore env st query k
    simp only [if_true]
    exact ⟨h2.trans hm, h3, fun _ => h4⟩
  | false =>
    simp only [Bool.false_eq_true, if_false]
    refine ⟨?_, ?_, fun h => absurd h (by simp)⟩
    · cases env.embed st.trace query with
      | error e => exact hm
      | ok q =>
        simp only [ServerState.log]
        cases st.collection with
        | none => exact hm
        | some col =>
          simp only []
          cases env.collectionQuery (st.trace ++ [Event.embed query]) q k with
          | error e => exact hm
          | ok docs => cases docs <;> exact hm
    · cases env.embed st.trace query with
      | error e => rfl
      | ok q =>
        simp only [ServerState.log]
        cases st.collection with
        | none => rfl
        | some col =>
          simp only []
          cases env.collectionQuery (st.trace ++ [Event.embed query]) q k with
          | error e => rfl
          | ok docs => cases docs <;> rfl

theorem askHandler_frame {F : Type} (env : Env F)
    (st : ServerState F) (query : QueryField) :
    (askHandler env st query).2.useInMemory = st.useInMemory
      ∧ (askHandler env st query).2.collection = st.collection := by
  unfold askHandler
  cases query with
  | absent => exact ⟨rfl, rfl⟩
  | other => exact ⟨rfl, rfl⟩
  | text q =>
    simp only []
    split
    · exact ⟨rfl, rfl⟩
    · obtain ⟨h1, h2, -⟩ := retrieveTopK_frame env st q 4
      split
      · next e st1 heq =>
        rw [heq] at h1 h2
        exact ⟨h1, h2⟩
      · next topDocs st1 heq =>
        rw [heq] at h1 h2
        split <;> exact ⟨h1, h2⟩

theorem handle_frame {F : Type} (env : Env F) (st : ServerState F)
    (req : Request) :
    (handle env st req).2.useInMemory = st.useInMemory
      ∧ (handle env st req).2.collection = st.collection := by
  cases req with
  | health => exact ⟨rfl, rfl⟩
  | upload file => exact uploadHandler_frame env st file
  | ask query => exact askHandler_frame env st query

theorem initVectorStore_variant {F : Type} (env : Env F) (st : ServerState F) :
    (initVectorStore env st).useInMemory = true
      ∨ (initVectorStore env st).collection.isSome = true := by
  unfold initVectorStore
  cases env.chromaUrl with
  | false => exact Or.inl rfl
  | true =>
    simp only [if_true]
    cases env.newCloudClient with
    | error e => exact Or.inl rfl
    | ok u =>
      simp only []
      cases env.getOrCreateCollection with
      | error e => exact Or.inl rfl
      | ok c => exact Or.inr rfl

theorem initVectorStore_fallback {F : Type} (env : Env F) (st : ServerState F)
    (h : env.chromaUrl = false ∨ (∃ e, env.newCloudClient = .error e)
      ∨ (∃ e, env.getOrCreateCollection = .error e)) :
    (initVectorStore env st).useInMemory = true := by
  unfold initVectorStore
  cases hu : env.chromaUrl with
  | false => rfl
  | true =>
    simp only [if_true]
    cases hn : env.newCloudClient with
    | error e => rfl
    | ok u =>
      simp only []
      cases hg : env.getOrCreateCollection with
      | error e => rfl
      | ok c =>
        rcases h with h | ⟨e, h⟩ | ⟨e, h⟩
        · rw [hu] at h; exact absurd h (by simp)
        · rw [hn] at h; exact absurd h (by simp)
        · rw [hg] at h; exact absurd h (by simp)

/-- C7. (1) When the vector-db URL is absent, or creating the client or the collection
throws, `initVectorStore` completes with `useInMemory = true`. (2) In every state reachable
after startup, the in-memory variant is selected or the collection is connected. (3) No
request handler, and neither `addChunks` nor `retrieveTopK`, changes `useInMemory` or
`collection`. (4) With the in-memory variant selected, `addChunks` and `retrieveTopK` add
no call on the remote collection to the trace. -/
theorem variant_fixed {F : Type} (env : Env F) :
    (∀ st : ServerState F,
        (env.chromaUrl = false ∨ (∃ e, env.newCloudClient = .error e)
          ∨ (∃ e, env.getOrCreateCollection = .error e)) →
        (initVectorStore env st).useInMemory = true)
      ∧ (∀ st : ServerState F, Reachable env st →
          st.useInMemory = true ∨ st.collection.isSome = true)
      ∧ (∀ (st : ServerState F) (req : Request),
          (handle env st req).2.useInMemory = st.useInMemory
            ∧ (handle env st req).2.collection = st.collection)
      ∧ (∀ (st : ServerState F) (chunks : List JSString),
          (addChunks env st chunks).2.useInMemory = st.useInMemory
            ∧ (addChunks env st chunks).2.collection = st.collection)
      ∧ (∀ (st : ServerState F) (query : JSString) (k : Int),
          (retrieveTopK env st query k).2.useInMemory = st.useInMemory
            ∧ (retrieveTopK env st query k).2.collection = st.collection)
      ∧ (∀ (st : ServerState F) (chunks : List JSString), st.useInMemory = true →
          ∃ new : List (Event F), (addChunks env st chunks).2.trace = st.trace ++ new
            ∧ ∀ e ∈ new, e.isRemote = false)
      ∧ (∀ (st : ServerState F) (query : JSString) (k : Int), st.useInMemory = true →
          ∃ new : List (Event F), (retrieveTopK env st query k).2.trace = st.trace ++ new
            ∧ ∀ e ∈ new, e.isRemote = false) := by
  refine ⟨fun st h => initVectorStore_fallback env st h, ?_, handle_frame env, ?_, ?_, ?_, ?_⟩
  · intro st hr
    induction hr with
    | start => exact initVectorStore_variant env ServerState.initial
    | step req _ ih =>
      obtain ⟨h1, h2⟩ := handle_frame env _ req
      rw [h1, h2]
      exact ih
  · intro st chunks
    obtain ⟨h1, h2, -⟩ := addChunks_frame env st chunks
    exact ⟨h1, h2⟩
  · intro st query k
    obtain ⟨h1, h2, -⟩ := retrieveTopK_frame env st query k
    exact ⟨h1, h2⟩
  · intro st chunks hm
    obtain ⟨-, -, new, h3, h4⟩ := addChunks_frame env st chunks
    exact ⟨new, h3, h4 hm⟩
  · intro st query k hm
    obtain ⟨-, -, h3⟩ := retrieveTopK_frame env st query k
    exact ⟨[Event.embed query], h3 hm, by simp [Event.isRemote]⟩

/-- C7 with the vector-db URL set and the collection unreachable: startup selects the
in-memory variant, and it is still selected after an upload and a question. -/
theorem variant_fixed_witness :
    (initVectorStore
        ({ ratEnv with chromaUrl := true, newCloudClient := .ok () })
        ServerState.initial).useInMemory = true
      ∧ (handle
          ({ ratEnv with chromaUrl := true, newCloudClient := .ok () })
          (handle
            ({ ratEnv with chromaUrl := true, newCloudClient := .ok () })
            (initVectorStore
              ({ ratEnv with chromaUrl := true, newCloudClient := .ok () })
              ServerState.initial)
            (Request.upload (some ⟨ofString "text/plain", ofString "a.txt", [104, 105]⟩))).2
          (Request.ask (QueryField.text (ofString "hi")))).2.useInMemory = true := by
  have h := variant_fixed
    ({ ratEnv with chromaUrl := true, newCloudClient := .ok () })
  have h0 := h.1 ServerState.initial (Or.inr (Or.inr ⟨"unused", rfl⟩))
  refine ⟨h0, ?_⟩
  rw [(h.2.2.1 _ _).1, (h.2.2.1 _ _).1]
  exact h0

end ChatDoc
